import Mathlib

/-!
# gocommit: the diff chunker and the recursive summarizer

A shallow embedding of `chunkString`, `getOverlapLines`, `chunkAndSummarizeDiff`
and `main` from `gocommit.go`, with the properties of the chunking and reduction
pipeline stated over it. The two backend calls, `summarizeDiff` and
`generateCommitMessage`, are injected as functions on an explicit state of the
outside world.

A Go `string` is a sequence of bytes and `len` counts bytes; here a string is a
list whose elements stand for the bytes. Go `int` values (the chunk budget, the
context length, the overlap) are `Int`; string lengths are far below the
64-bit range, so the additions of the source do not wrap.
-/

namespace Gocommit

/-- A Go string: the list of its bytes. -/
abbrev GoString := List Char

/-- The newline byte, the separator of `strings.Split(_, "\n")` and `strings.Join(_, "\n")`. -/
def nl : Char := '\n'

/-- The literal `"diff --git"` that opens a file section. -/
def fileHeader : GoString := ['d', 'i', 'f', 'f', ' ', '-', '-', 'g', 'i', 't']

/-- The constant `summarizeThreshold = 2000`. -/
def summarizeThreshold : Int := 2000

/-- Go `strings.HasPrefix(s, p)`. -/
def HasPrefix (s p : GoString) : Bool := p.isPrefixOf s

/-- Go `strings.Split(s, "\n")`: the pieces between newlines; a text with `n`
newlines has `n + 1` pieces, the empty text has the one piece `""`. -/
def Split : GoString → List GoString
  | [] => [[]]
  | c :: cs =>
    if c = nl then [] :: Split cs
    else
      match Split cs with
      | [] => [[c]]
      | piece :: pieces => (c :: piece) :: pieces

/-- Go `strings.Join(parts, "\n")`. -/
def Join : List GoString → GoString
  | [] => []
  | [p] => p
  | p :: q :: ps => p ++ nl :: Join (q :: ps)

/-- The `Config` record; the pipeline reads only `ContextLength` (the prompt
templates are consumed inside the injected summarizer). -/
structure Config where
  ContextLength : Int
deriving DecidableEq, Repr

/-- The loop variables of `chunkString`: `chunks`, `currentChunk`, `currentChunkSize`. -/
structure ChunkState where
  chunks : List GoString
  currentChunk : GoString
  currentChunkSize : Int
deriving DecidableEq, Repr

/-- The body shared by both flushes of the loop:
`if currentChunk != "" { chunks = append(chunks, currentChunk) }; currentChunk = ""; currentChunkSize = 0`. -/
def flush (st : ChunkState) : ChunkState :=
  { chunks := if st.currentChunk ≠ [] then st.chunks ++ [st.currentChunk] else st.chunks
    currentChunk := []
    currentChunkSize := 0 }

/-- One iteration of the `for i` loop of `chunkString` on `line = lines[i]`, where
`rest = lines[i+1:]` (so `i == len(lines)-1` is `rest = []` and `lines[i+1]` is its head). -/
def chunkStep (chunkSize : Int) (line : GoString) (rest : List GoString)
    (st : ChunkState) : ChunkState :=
  let lineSize : Int := (line.length : Int) + 1
  let st1 :=
    if HasPrefix line fileHeader = true ∨ st.currentChunkSize + lineSize > chunkSize then flush st
    else st
  let st2 : ChunkState :=
    { chunks := st1.chunks
      currentChunk := st1.currentChunk ++ (line ++ [nl])
      currentChunkSize := st1.currentChunkSize + lineSize }
  let isLastOrBeforeHeader : Bool :=
    match rest with
    | [] => true
    | next :: _ => HasPrefix next fileHeader
  if isLastOrBeforeHeader = true then flush st2 else st2

/-- The `for i := 0; i < len(lines); i++` loop of `chunkString` over the remaining lines. -/
def chunkLoop (chunkSize : Int) : List GoString → ChunkState → ChunkState
  | [], st => st
  | line :: rest, st => chunkLoop chunkSize rest (chunkStep chunkSize line rest st)

/-- Go `getOverlapLines(chunk, overlap)` for `overlap ≥ 0` (a negative overlap makes
the slice expression `lines[len(lines)-overlap:]` panic; `chunkString` calls it
only under `overlap > 0`). -/
def getOverlapLines (chunk : GoString) (overlap : Nat) : GoString :=
  let lines := Split chunk
  if lines.length ≤ overlap then chunk
  else Join (lines.drop (lines.length - overlap)) ++ [nl]

/-- The overlap loop `for i := 1; i < len(chunks); i++ { chunks[i] = getOverlapLines(chunks[i-1], overlap) + chunks[i] }`,
updating the slice in place. -/
def overlapLoop (overlap : Nat) (chunks : List GoString) : List GoString :=
  (List.range' 1 (chunks.length - 1)).foldl
    (fun cs i => cs.set i (getOverlapLines (cs.getD (i - 1) []) overlap ++ cs.getD i []))
    chunks

/-- Go `chunkString(s, chunkSize, overlap)`. -/
def chunkString (s : GoString) (chunkSize : Int) (overlap : Int) : List GoString :=
  let lines := Split s
  let chunks := (chunkLoop chunkSize lines ⟨[], [], 0⟩).chunks
  if overlap > 0 ∧ chunks.length > 1 then overlapLoop overlap.toNat chunks
  else chunks

/-- The `for _, chunk := range chunks` loop of `chunkAndSummarizeDiff`. The backend
call `summarizeDiff(chunk, config)` is an HTTP request; it is injected as a
function on a state `σ` of the outside world, which returns Go's
`(string, error)` pair and the next state, so a call may fail, or answer
differently, on a text an earlier call was given. `summaries` is the slice built
so far and `calls` records, in order, every chunk the summarizer has been invoked
on. The result is the summaries with the error that stopped the loop, if any. -/
def summarizeLoop {σ ε : Type}
    (summarizeDiff : GoString → Config → σ → (GoString × Option ε) × σ) (config : Config) :
    List GoString → List GoString → σ → List GoString →
      (List GoString × Option ε) × σ × List GoString
  | [], summaries, w, calls => ((summaries, none), w, calls)
  | chunk :: rest, summaries, w, calls =>
    match summarizeDiff chunk config w with
    | ((_, some err), w1) => ((summaries, some err), w1, calls ++ [chunk])
    | ((summary, none), w1) =>
      summarizeLoop summarizeDiff config rest (summaries ++ [summary]) w1 (calls ++ [chunk])

/-- Go `chunkAndSummarizeDiff(diff, config)`, returning Go's `(string, error)` pair,
the state of the backend and the record of summarizer invocations. The source
recurses without a bound; `fuel` bounds the number of rounds and `none` means the
bound was reached. -/
def chunkAndSummarizeDiff {σ ε : Type}
    (summarizeDiff : GoString → Config → σ → (GoString × Option ε) × σ) :
    Nat → GoString → Config → σ → List GoString →
      Option (GoString × Option ε) × σ × List GoString
  | 0, _, _, w, calls => (none, w, calls)
  | fuel + 1, diff, config, w, calls =>
    let chunks := chunkString diff config.ContextLength 5
    match summarizeLoop summarizeDiff config chunks [] w calls with
    | ((_, some err), w1, calls1) => (some ([], some err), w1, calls1)
    | ((summaries, none), w1, calls1) =>
      let combinedSummary := Join summaries
      if (combinedSummary.length : Int) > config.ContextLength then
        chunkAndSummarizeDiff summarizeDiff fuel combinedSummary config w1 calls1
      else (some (combinedSummary, none), w1, calls1)

/-- How a run of `main` ends. -/
inductive Outcome (ε : Type) where
  /-- `exitWithMessage("No diff on stdin")`: exit status 2. -/
  | noDiff : Outcome ε
  /-- `exitWithError("Error summarizing diff", err)`: exit status 1. -/
  | summarizeError (err : ε) : Outcome ε
  /-- `exitWithError("Error generating commit message", err)`: exit status 1. -/
  | generateError (err : ε) : Outcome ε
  /-- `fmt.Println(SanitizeString(commitMessage))` and return: exit status 0; the
  field is `commitMessage` as the generator returned it. -/
  | printed (commitMessage : GoString) : Outcome ε
deriving DecidableEq, Repr

/-- The exit status of the process. -/
def exitStatus {ε : Type} : Outcome ε → Nat
  | .noDiff => 2
  | .summarizeError _ => 1
  | .generateError _ => 1
  | .printed _ => 0

/-- What a run of `main` did: how it ended (`none`: the round bound of the model was
reached), the state of the backend, and the texts the summarizer and the
commit-message generator were called on, in order. -/
structure MainRun (σ ε : Type) where
  outcome : Option (Outcome ε)
  world : σ
  summarizeCalls : List GoString
  generateCalls : List GoString
deriving DecidableEq, Repr

/-- Go `main` run without a subcommand, from line 71 on, for a configuration that
loaded and a text `diffContent` that was read from standard input: the exit on
the empty text, the size gate around `chunkAndSummarizeDiff` with the exit on its
error, and the call of `generateCommitMessage(processedDiff, config)`, injected
like the summarizer, with the exit on its error. -/
def main {σ ε : Type}
    (summarizeDiff : GoString → Config → σ → (GoString × Option ε) × σ)
    (generateCommitMessage : GoString → Config → σ → (GoString × Option ε) × σ)
    (fuel : Nat) (diffContent : GoString) (config : Config) (w : σ) : MainRun σ ε :=
  if diffContent.length = 0 then
    { outcome := some .noDiff, world := w, summarizeCalls := [], generateCalls := [] }
  else
    let processed : Option (GoString × Option ε) × σ × List GoString :=
      if (diffContent.length : Int) > summarizeThreshold then
        chunkAndSummarizeDiff summarizeDiff fuel diffContent config w []
      else (some (diffContent, none), w, [])
    match processed with
    | (none, w1, calls) =>
      { outcome := none, world := w1, summarizeCalls := calls, generateCalls := [] }
    | (some (_, some err), w1, calls) =>
      { outcome := some (.summarizeError err), world := w1, summarizeCalls := calls,
        generateCalls := [] }
    | (some (processedDiff, none), w1, calls) =>
      match generateCommitMessage processedDiff config w1 with
      | ((_, some err), w2) =>
        { outcome := some (.generateError err), world := w2, summarizeCalls := calls,
          generateCalls := [processedDiff] }
      | ((commitMessage, none), w2) =>
        { outcome := some (.printed commitMessage), world := w2, summarizeCalls := calls,
          generateCalls := [processedDiff] }

/-! ## Line-level view of the chunker

The loop of `chunkString` builds its chunks by appending whole lines. The
definitions below follow the same loop while keeping every chunk as the list of
its lines; `toChunkState` maps this view back to the loop variables of the
source, and `chunkStep_toChunkState` proves the two agree step by step. -/

/-- The text of a list of lines, each followed by its newline. -/
def unlines : List GoString → GoString
  | [] => []
  | l :: ls => l ++ nl :: unlines ls

/-- The size the loop adds for a line: `len(line) + 1`. -/
def lineSize (line : GoString) : Int := (line.length : Int) + 1

/-- The sum of `len(line) + 1` over a list of lines. -/
def totalSize : List GoString → Int
  | [] => 0
  | l :: ls => lineSize l + totalSize ls

/-- The loop variables as lines: the finished chunks and the open chunk. -/
structure LineState where
  done : List (List GoString)
  cur : List GoString
deriving DecidableEq, Repr

/-- The loop variables of the source that a line-level state stands for. -/
def toChunkState (gs : LineState) : ChunkState :=
  { chunks := gs.done.map unlines
    currentChunk := unlines gs.cur
    currentChunkSize := ((unlines gs.cur).length : Int) }

/-- The flush of the loop at line level. -/
def lineFlush (gs : LineState) : LineState :=
  { done := if gs.cur ≠ [] then gs.done ++ [gs.cur] else gs.done
    cur := [] }

/-- Whether the iteration on a line with `rest` after it ends with a flush. -/
def endsChunk : List GoString → Bool
  | [] => true
  | next :: _ => HasPrefix next fileHeader

/-- One iteration of the loop at line level. -/
def lineStep (chunkSize : Int) (line : GoString) (rest : List GoString)
    (gs : LineState) : LineState :=
  let gs1 :=
    if HasPrefix line fileHeader = true ∨ totalSize gs.cur + lineSize line > chunkSize then
      lineFlush gs
    else gs
  let gs2 : LineState := { done := gs1.done, cur := gs1.cur ++ [line] }
  if endsChunk rest = true then lineFlush gs2 else gs2

/-- The loop at line level. -/
def lineLoop (chunkSize : Int) : List GoString → LineState → LineState
  | [], gs => gs
  | line :: rest, gs => lineLoop chunkSize rest (lineStep chunkSize line rest gs)

/-- The chunks of `chunkString(s, chunkSize, 0)` as lists of lines. -/
def chunkLines (s : GoString) (chunkSize : Int) : List (List GoString) :=
  (lineLoop chunkSize (Split s) ⟨[], []⟩).done

/-- The overlap pass written by recursion on the chunks, `prev` being the chunk
before the next one as the loop finds it, that is, with its own prefix. -/
def overlapFrom (overlap : Nat) : GoString → List GoString → List GoString
  | _, [] => []
  | prev, c :: cs =>
    (getOverlapLines prev overlap ++ c) :: overlapFrom overlap (getOverlapLines prev overlap ++ c) cs

/-- The loop invariant at line level for a property `Q` of chunks: every finished
chunk is non-empty and has `Q`, and so has the open chunk once it holds a line. -/
def LineInv (Q : List GoString → Prop) (gs : LineState) : Prop :=
  (∀ g ∈ gs.done, g ≠ [] ∧ Q g) ∧ (gs.cur ≠ [] → Q gs.cur)

/-- A chunk within budget, or a single line that alone exceeds the budget. -/
def WithinBudget (chunkSize : Int) (g : List GoString) : Prop :=
  totalSize g ≤ chunkSize ∨ ∃ l, g = [l] ∧ chunkSize < lineSize l

/-- No line after the first of the chunk opens a file section. -/
def HeaderOnlyFirst (g : List GoString) : Prop :=
  ∀ l ∈ g.tail, HasPrefix l fileHeader = false


/-! ## What the backend answers

The two definitions below describe, without the loop of the source, what a
backend answers to a list of chunks and which text a later round starts from;
the theorems on the reduction take their hypotheses from them. -/

/-- The summaries a backend in state `w` gives to the chunks in order when every
call succeeds, with the state it is left in; `none` when some call fails. -/
def answers {σ ε : Type} (summarizeDiff : GoString → Config → σ → (GoString × Option ε) × σ)
    (config : Config) : List GoString → σ → Option (List GoString × σ)
  | [], w => some ([], w)
  | chunk :: rest, w =>
    match summarizeDiff chunk config w with
    | ((_, some _), _) => none
    | ((summary, none), w1) =>
      match answers summarizeDiff config rest w1 with
      | some (summaries, w2) => some (summary :: summaries, w2)
      | none => none

/-- The input of round `n` (counted from 0) of a reduction that starts from `diff`
in backend state `w` with call record `calls`: every earlier round summarized all
its chunks without error and its summaries, joined by newlines, were longer than
`ContextLength`. The result holds the text the round starts from, the state of the
backend and the record of the calls of the earlier rounds. -/
def roundInput {σ ε : Type} (summarizeDiff : GoString → Config → σ → (GoString × Option ε) × σ)
    (config : Config) : Nat → GoString → σ → List GoString →
      Option (GoString × σ × List GoString)
  | 0, diff, w, calls => some (diff, w, calls)
  | n + 1, diff, w, calls =>
    match answers summarizeDiff config (chunkString diff config.ContextLength 5) w with
    | none => none
    | some (summaries, w1) =>
      if (totalSize summaries - 1 : Int) > config.ContextLength then
        roundInput summarizeDiff config n (unlines summaries).dropLast w1
          (calls ++ chunkString diff config.ContextLength 5)
      else none

/-! ## The chunker -/

theorem unlines_append (xs ys : List GoString) :
    unlines (xs ++ ys) = unlines xs ++ unlines ys := by
  induction xs with
  | nil => rfl
  | cons x xs ih => simp [unlines, ih]

theorem unlines_eq_nil (xs : List GoString) : unlines xs = [] ↔ xs = [] := by
  cases xs <;> simp [unlines]

theorem length_unlines (xs : List GoString) :
    ((unlines xs).length : Int) = totalSize xs := by
  induction xs with
  | nil => rfl
  | cons x xs ih =>
    simp only [unlines, totalSize, lineSize, List.length_append, List.length_cons]
    push_cast
    omega

theorem flush_toChunkState (gs : LineState) :
    flush (toChunkState gs) = toChunkState (lineFlush gs) := by
  by_cases h : gs.cur = []
  · simp [flush, toChunkState, lineFlush, h, unlines]
  · simp [flush, toChunkState, lineFlush, h, unlines, unlines_eq_nil]

theorem chunkStep_toChunkState (b : Int) (line : GoString) (rest : List GoString)
    (gs : LineState) :
    chunkStep b line rest (toChunkState gs) = toChunkState (lineStep b line rest gs) := by
  have hadd : ∀ g : LineState,
      ({ chunks := (toChunkState g).chunks
         currentChunk := (toChunkState g).currentChunk ++ (line ++ [nl])
         currentChunkSize := (toChunkState g).currentChunkSize + ((line.length : Int) + 1) } :
        ChunkState) = toChunkState ⟨g.done, g.cur ++ [line]⟩ := by
    intro g
    simp only [toChunkState, unlines_append, unlines, List.length_append, List.length_cons,
      List.length_nil, List.append_nil, ChunkState.mk.injEq, true_and]
    push_cast
    omega
  have hends : (match rest with
      | [] => true
      | next :: _ => HasPrefix next fileHeader) = endsChunk rest := by
    cases rest <;> rfl
  have hsize : (toChunkState gs).currentChunkSize = totalSize gs.cur := length_unlines gs.cur
  unfold chunkStep lineStep
  simp only [hends, hsize, lineSize]
  by_cases hc : HasPrefix line fileHeader = true ∨ totalSize gs.cur + ((line.length : Int) + 1) > b
  · simp only [hc, if_true, flush_toChunkState, hadd]
    by_cases he : endsChunk rest = true
    · simp only [he, if_true, flush_toChunkState]
    · simp only [he, if_false]
      simp
  · simp only [hc, if_false, hadd]
    by_cases he : endsChunk rest = true
    · simp only [he, if_true, flush_toChunkState]
    · simp only [he, if_false]
      simp

theorem chunkLoop_toChunkState (b : Int) (lines : List GoString) (gs : LineState) :
    chunkLoop b lines (toChunkState gs) = toChunkState (lineLoop b lines gs) := by
  induction lines generalizing gs with
  | nil => rfl
  | cons line rest ih => simp only [chunkLoop, lineLoop, chunkStep_toChunkState, ih]

/-- The chunks of `chunkString` without overlap are the texts of `chunkLines`. -/
theorem chunkString_zero (s : GoString) (b : Int) :
    chunkString s b 0 = (chunkLines s b).map unlines := by
  have h := chunkLoop_toChunkState b (Split s) ⟨[], []⟩
  have h0 : toChunkState ⟨[], []⟩ = ⟨[], [], 0⟩ := rfl
  rw [h0] at h
  simp [chunkString, chunkLines, h, toChunkState]

theorem lineFlush_inv (Q : List GoString → Prop) (gs : LineState) (h : LineInv Q gs) :
    LineInv Q (lineFlush gs) := by
  obtain ⟨hd, hc⟩ := h
  refine ⟨?_, by simp [lineFlush]⟩
  intro g hg
  by_cases hcur : gs.cur = []
  · simp only [lineFlush, hcur, ne_eq, not_true_eq_false, if_false] at hg
    exact hd g hg
  · simp only [lineFlush, hcur, ne_eq, not_false_eq_true, if_true, List.mem_append,
      List.mem_singleton] at hg
    rcases hg with hg | hg
    · exact hd g hg
    · subst hg
      exact ⟨hcur, hc hcur⟩

theorem lineStep_inv (b : Int) (Q : List GoString → Prop)
    (hsingle : ∀ l, Q [l])
    (hext : ∀ cur l, cur ≠ [] → Q cur → HasPrefix l fileHeader = false →
      totalSize cur + lineSize l ≤ b → Q (cur ++ [l]))
    (line : GoString) (rest : List GoString) (gs : LineState) (h : LineInv Q gs) :
    LineInv Q (lineStep b line rest gs) := by
  have hadd : ∀ g : LineState, LineInv Q g →
      (g.cur ≠ [] → HasPrefix line fileHeader = false ∧ totalSize g.cur + lineSize line ≤ b) →
      LineInv Q ⟨g.done, g.cur ++ [line]⟩ := by
    intro g hg hcond
    refine ⟨hg.1, fun _ => ?_⟩
    by_cases hcur : g.cur = []
    · simp only [hcur, List.nil_append]
      exact hsingle line
    · exact hext g.cur line hcur (hg.2 hcur) (hcond hcur).1 (hcond hcur).2
  unfold lineStep
  by_cases hc : HasPrefix line fileHeader = true ∨ totalSize gs.cur + lineSize line > b
  · simp only [hc, if_true]
    have h2 : LineInv Q ⟨(lineFlush gs).done, (lineFlush gs).cur ++ [line]⟩ :=
      hadd (lineFlush gs) (lineFlush_inv Q gs h) (fun hne => absurd rfl hne)
    by_cases he : endsChunk rest = true
    · simp only [he, if_true]
      exact lineFlush_inv Q _ h2
    · simp only [he, if_false]
      exact h2
  · simp only [hc, if_false]
    have hc2 : HasPrefix line fileHeader = false ∧ totalSize gs.cur + lineSize line ≤ b := by
      constructor
      · cases hp : HasPrefix line fileHeader
        · rfl
        · exact absurd (Or.inl hp) hc
      · by_contra hlt
        exact hc (Or.inr (by omega))
    have h2 : LineInv Q ⟨gs.done, gs.cur ++ [line]⟩ := hadd gs h (fun _ => hc2)
    by_cases he : endsChunk rest = true
    · simp only [he, if_true]
      exact lineFlush_inv Q _ h2
    · simp only [he, if_false]
      exact h2

theorem lineLoop_inv (b : Int) (Q : List GoString → Prop)
    (hsingle : ∀ l, Q [l])
    (hext : ∀ cur l, cur ≠ [] → Q cur → HasPrefix l fileHeader = false →
      totalSize cur + lineSize l ≤ b → Q (cur ++ [l]))
    (lines : List GoString) (gs : LineState) (h : LineInv Q gs) :
    LineInv Q (lineLoop b lines gs) := by
  induction lines generalizing gs with
  | nil => exact h
  | cons line rest ih => exact ih _ (lineStep_inv b Q hsingle hext line rest gs h)

theorem lineFlush_content (gs : LineState) :
    (lineFlush gs).done.flatten ++ (lineFlush gs).cur = gs.done.flatten ++ gs.cur := by
  by_cases hcur : gs.cur = []
  · simp [lineFlush, hcur]
  · simp [lineFlush, hcur]

theorem lineStep_content (b : Int) (line : GoString) (rest : List GoString) (gs : LineState) :
    (lineStep b line rest gs).done.flatten ++ (lineStep b line rest gs).cur
      = gs.done.flatten ++ gs.cur ++ [line] := by
  unfold lineStep
  by_cases hc : HasPrefix line fileHeader = true ∨ totalSize gs.cur + lineSize line > b
  · by_cases he : endsChunk rest = true
    · simp only [hc, he, if_true, lineFlush_content]
      rw [← List.append_assoc, lineFlush_content]
    · simp only [hc, he, if_true, if_false, Bool.false_eq_true]
      rw [← List.append_assoc, lineFlush_content]
  · by_cases he : endsChunk rest = true
    · simp only [hc, he, if_true, if_false, lineFlush_content, List.append_assoc]
    · simp only [hc, he, if_false, List.append_assoc, Bool.false_eq_true]

theorem lineLoop_content (b : Int) (lines : List GoString) (gs : LineState) :
    (lineLoop b lines gs).done.flatten ++ (lineLoop b lines gs).cur
      = gs.done.flatten ++ gs.cur ++ lines := by
  induction lines generalizing gs with
  | nil => simp [lineLoop]
  | cons line rest ih =>
    simp only [lineLoop]
    rw [ih, lineStep_content]
    simp

theorem lineStep_cur_of_ends (b : Int) (line : GoString) (rest : List GoString) (gs : LineState)
    (he : endsChunk rest = true) : (lineStep b line rest gs).cur = [] := by
  unfold lineStep
  simp [he, lineFlush]

theorem lineLoop_cur (b : Int) (lines : List GoString) (gs : LineState) (hne : lines ≠ []) :
    (lineLoop b lines gs).cur = [] := by
  induction lines generalizing gs with
  | nil => exact absurd rfl hne
  | cons line rest ih =>
    cases rest with
    | nil => exact lineStep_cur_of_ends b line [] gs rfl
    | cons l2 rest2 =>
      simp only [lineLoop] at ih ⊢
      exact ih _ (by simp)

theorem Split_ne_nil (s : GoString) : Split s ≠ [] := by
  cases s with
  | nil => simp [Split]
  | cons c cs =>
    unfold Split
    split
    · simp
    · split <;> simp

theorem unlines_Split (s : GoString) : unlines (Split s) = s ++ [nl] := by
  induction s with
  | nil => rfl
  | cons c cs ih =>
    unfold Split
    split
    · rename_i hc
      simp [unlines, ih, hc]
    · cases hs : Split cs with
      | nil => exact absurd hs (Split_ne_nil cs)
      | cons piece pieces =>
        rw [hs] at ih
        simp only [unlines] at ih ⊢
        simp [ih]

theorem chunkLines_flatten (s : GoString) (b : Int) : (chunkLines s b).flatten = Split s := by
  have h := lineLoop_content b (Split s) ⟨[], []⟩
  have hc := lineLoop_cur b (Split s) ⟨[], []⟩ (Split_ne_nil s)
  rw [hc] at h
  simpa [chunkLines] using h

theorem chunkLines_inv (s : GoString) (b : Int) (Q : List GoString → Prop)
    (hsingle : ∀ l, Q [l])
    (hext : ∀ cur l, cur ≠ [] → Q cur → HasPrefix l fileHeader = false →
      totalSize cur + lineSize l ≤ b → Q (cur ++ [l])) :
    ∀ g ∈ chunkLines s b, g ≠ [] ∧ Q g :=
  (lineLoop_inv b Q hsingle hext (Split s) ⟨[], []⟩ ⟨by simp, by simp⟩).1

theorem flatten_map_unlines (gs : List (List GoString)) :
    (gs.map unlines).flatten = unlines gs.flatten := by
  induction gs with
  | nil => rfl
  | cons g gs ih => simp [ih, unlines_append]

theorem withinBudget_single (b : Int) (l : GoString) : WithinBudget b [l] := by
  by_cases h : totalSize [l] ≤ b
  · exact Or.inl h
  · refine Or.inr ⟨l, rfl, ?_⟩
    simp only [totalSize] at h
    omega

theorem totalSize_append (xs ys : List GoString) :
    totalSize (xs ++ ys) = totalSize xs + totalSize ys := by
  induction xs with
  | nil => simp [totalSize]
  | cons x xs ih =>
    rw [List.cons_append]
    simp only [totalSize]
    rw [ih]
    omega

theorem withinBudget_ext (b : Int) (cur : List GoString) (l : GoString)
    (hfit : totalSize cur + lineSize l ≤ b) : WithinBudget b (cur ++ [l]) := by
  left
  rw [totalSize_append]
  simp only [totalSize]
  omega

theorem headerOnlyFirst_ext (cur : List GoString) (l : GoString) (hne : cur ≠ [])
    (hq : HeaderOnlyFirst cur) (hl : HasPrefix l fileHeader = false) :
    HeaderOnlyFirst (cur ++ [l]) := by
  cases cur with
  | nil => exact absurd rfl hne
  | cons c cs =>
    intro x hx
    simp only [List.cons_append, List.tail_cons, List.mem_append, List.mem_singleton] at hx
    rcases hx with hx | hx
    · exact hq x (by simpa using hx)
    · rw [hx]; exact hl

theorem countP_le_one_of_headerOnlyFirst (g : List GoString) (h : HeaderOnlyFirst g) :
    g.countP (fun l => HasPrefix l fileHeader) ≤ 1 := by
  cases g with
  | nil => simp
  | cons l t =>
    have ht : t.countP (fun l => HasPrefix l fileHeader) = 0 := by
      rw [List.countP_eq_zero]
      intro a ha
      simp [h a (by simpa using ha)]
    rw [List.countP_cons, ht]
    split <;> omega

theorem countP_flatten_le_length (gs : List (List GoString))
    (h : ∀ g ∈ gs, HeaderOnlyFirst g) :
    gs.flatten.countP (fun l => HasPrefix l fileHeader) ≤ gs.length := by
  induction gs with
  | nil => simp
  | cons g gs ih =>
    have h1 := countP_le_one_of_headerOnlyFirst g (h g (by simp))
    have h2 := ih (fun x hx => h x (by simp [hx]))
    simp only [List.flatten_cons, List.countP_append, List.length_cons]
    omega

/-- C1: the chunks of `chunkString(s, budget, 0)`, concatenated in order, are the
lines of `strings.Split(s, "\n")` in their order, each written once with its
newline (the text `s` followed by one newline); every chunk is a non-empty run
of consecutive whole lines. -/
theorem chunkString_reconstructs (s : GoString) (budget : Int) :
    (chunkString s budget 0).flatten = unlines (Split s) ∧
    (chunkString s budget 0).flatten = s ++ [nl] ∧
    ∃ groups : List (List GoString),
      groups.flatten = Split s ∧ (∀ g ∈ groups, g ≠ []) ∧
      chunkString s budget 0 = groups.map unlines := by
  have hflat : (chunkString s budget 0).flatten = unlines (Split s) := by
    rw [chunkString_zero, flatten_map_unlines, chunkLines_flatten]
  refine ⟨hflat, by rw [hflat, unlines_Split], chunkLines s budget, chunkLines_flatten s budget,
    ?_, chunkString_zero s budget⟩
  intro g hg
  exact (chunkLines_inv s budget (fun _ => True) (fun _ => trivial)
    (fun _ _ _ _ _ _ => trivial) g hg).1

/-- C2: every chunk of `chunkString(s, budget, 0)` has length at most `budget`,
except a chunk that is exactly one line of the input, kept whole with its
newline, whose size `len(line) + 1` exceeds `budget`. -/
theorem chunkString_within_budget (s : GoString) (budget : Int) (c : GoString)
    (hc : c ∈ chunkString s budget 0) :
    (c.length : Int) ≤ budget ∨
      ∃ line ∈ Split s, c = line ++ [nl] ∧ budget < (line.length : Int) + 1 := by
  rw [chunkString_zero, List.mem_map] at hc
  obtain ⟨g, hg, rfl⟩ := hc
  have hq := (chunkLines_inv s budget (WithinBudget budget) (withinBudget_single budget)
    (fun cur l _ _ _ hfit => withinBudget_ext budget cur l hfit) g hg).2
  rcases hq with hq | ⟨l, rfl, hl⟩
  · left
    rw [length_unlines]
    exact hq
  · right
    refine ⟨l, ?_, by simp [unlines], hl⟩
    rw [← chunkLines_flatten s budget]
    exact List.mem_flatten.mpr ⟨[l], hg, by simp⟩

/-- Witness of C2 on the text `"ab\nc"` with budget 2: the chunk `"ab\n"` is
longer than the budget and is the single line `"ab"`. -/
theorem chunkString_within_budget_witness :
    ['a', 'b', nl] ∈ chunkString ['a', 'b', nl, 'c'] 2 0 ∧
    ((['a', 'b', nl] : GoString).length ≤ (2 : Int) ∨
      ∃ line ∈ Split ['a', 'b', nl, 'c'],
        ['a', 'b', nl] = line ++ [nl] ∧ (2 : Int) < (line.length : Int) + 1) :=
  ⟨by decide, chunkString_within_budget ['a', 'b', nl, 'c'] 2 ['a', 'b', nl] (by decide)⟩

/-- C5: in `chunkString(s, budget, 0)` every chunk is a non-empty run of
consecutive lines of the input in which no line after the first begins with
`"diff --git"`; so a file-boundary line is always the first line of its chunk,
no chunk holds lines of two file sections, and the number of chunks is at least
the number of file-boundary lines. -/
theorem chunkString_file_boundaries (s : GoString) (budget : Int) :
    (∃ groups : List (List GoString),
      groups.flatten = Split s ∧
      chunkString s budget 0 = groups.map unlines ∧
      ∀ g ∈ groups, g ≠ [] ∧ ∀ l ∈ g.tail, HasPrefix l fileHeader = false) ∧
    (Split s).countP (fun l => HasPrefix l fileHeader) ≤ (chunkString s budget 0).length := by
  have hinv := chunkLines_inv s budget HeaderOnlyFirst (fun l x hx => by simp at hx)
    (fun cur l hne hq hl _ => headerOnlyFirst_ext cur l hne hq hl)
  refine ⟨⟨chunkLines s budget, chunkLines_flatten s budget, chunkString_zero s budget, hinv⟩, ?_⟩
  rw [chunkString_zero, List.length_map, ← chunkLines_flatten s budget]
  exact countP_flatten_le_length _ (fun g hg => (hinv g hg).2)

theorem totalSize_nonneg (xs : List GoString) : 0 ≤ totalSize xs := by
  induction xs with
  | nil => simp [totalSize]
  | cons x xs ih => simp only [totalSize, lineSize]; omega

theorem lineSize_pos (l : GoString) : 0 < lineSize l := by
  simp only [lineSize]; omega

/-- A run of lines without a file header that fits the budget together with the
open chunk is appended to the open chunk, which is closed at the end of the run
when the text ends there or a file header follows. -/
theorem lineLoop_run (b : Int) (A R : List GoString) (done : List (List GoString))
    (cur : List GoString) (hA : ∀ l ∈ A, HasPrefix l fileHeader = false)
    (hfit : totalSize cur + totalSize A ≤ b) (hR : endsChunk R = true) (hne : A ≠ []) :
    lineLoop b (A ++ R) ⟨done, cur⟩ = lineLoop b R ⟨done ++ [cur ++ A], []⟩ := by
  induction A generalizing cur with
  | nil => exact absurd rfl hne
  | cons a A ih =>
    have ha : HasPrefix a fileHeader = false := hA a (by simp)
    have hsz : ¬ (totalSize cur + lineSize a > b) := by
      have := totalSize_nonneg A
      simp only [totalSize] at hfit
      omega
    cases A with
    | nil =>
      simp only [List.cons_append, List.nil_append, lineLoop]
      congr 1
      simp [lineStep, ha, hsz, hR, lineFlush]
    | cons a2 A2 =>
      have ha2 : HasPrefix a2 fileHeader = false := hA a2 (by simp)
      have hstep : lineStep b a (a2 :: A2 ++ R) ⟨done, cur⟩ = ⟨done, cur ++ [a]⟩ := by
        simp [lineStep, ha, hsz, endsChunk, ha2]
      rw [List.cons_append, lineLoop, hstep]
      rw [ih (cur ++ [a]) (fun l hl => hA l (by simp [hl])) ?_ (by simp)]
      · simp
      · rw [totalSize_append]
        simp only [totalSize] at hfit ⊢
        omega

/-- A file header line opens a chunk; when its section fits the budget the whole
section up to the next file header (or the end of the text) is that chunk. -/
theorem lineLoop_section (b : Int) (d : GoString) (A R : List GoString)
    (done : List (List GoString)) (hd : HasPrefix d fileHeader = true)
    (hA : ∀ l ∈ A, HasPrefix l fileHeader = false)
    (hfit : totalSize (d :: A) ≤ b) (hR : endsChunk R = true) :
    lineLoop b (d :: A ++ R) ⟨done, []⟩ = lineLoop b R ⟨done ++ [d :: A], []⟩ := by
  cases A with
  | nil =>
    simp only [List.cons_append, List.nil_append, lineLoop]
    congr 1
    simp [lineStep, hd, hR, lineFlush]
  | cons a A2 =>
    have ha : HasPrefix a fileHeader = false := hA a (by simp)
    have hstep : lineStep b d (a :: A2 ++ R) ⟨done, []⟩ = ⟨done, [d]⟩ := by
      simp [lineStep, hd, endsChunk, ha, lineFlush]
    rw [List.cons_append, lineLoop, hstep]
    rw [lineLoop_run b (a :: A2) R done [d] hA ?_ hR (by simp)]
    · simp
    · simp only [totalSize] at hfit ⊢
      omega

theorem exists_first_header (p : GoString → Bool) (n : Nat) (l : List GoString)
    (h : l.countP p = n + 1) :
    ∃ P d R, l = P ++ d :: R ∧ (∀ x ∈ P, p x = false) ∧ p d = true ∧ R.countP p = n := by
  induction l with
  | nil => simp at h
  | cons x xs ih =>
    by_cases hx : p x = true
    · refine ⟨[], x, xs, rfl, by simp, hx, ?_⟩
      rw [List.countP_cons_of_pos _ _ hx] at h
      omega
    · rw [List.countP_cons_of_neg _ _ hx] at h
      obtain ⟨P, d, R, rfl, hP, hd, hR⟩ := ih h
      refine ⟨x :: P, d, R, rfl, ?_, hd, hR⟩
      intro y hy
      simp only [List.mem_cons] at hy
      rcases hy with rfl | hy
      · simpa using hx
      · exact hP y hy

/-- C9, counterexample: the text `"x\ndiff --git\ndiff --git"` has exactly two
lines beginning with `"diff --git"` and total size 24, under the budget 100, and
`chunkString` returns three chunks: the line before the first file header is a
chunk of its own. -/
theorem chunkString_two_files_counterexample :
    (Split ('x' :: nl :: (fileHeader ++ nl :: fileHeader))).countP
        (fun l => HasPrefix l fileHeader) = 2 ∧
    totalSize (Split ('x' :: nl :: (fileHeader ++ nl :: fileHeader))) ≤ 100 ∧
    chunkString ('x' :: nl :: (fileHeader ++ nl :: fileHeader)) 100 0
      = [['x', nl], fileHeader ++ [nl], fileHeader ++ [nl]] ∧
    (chunkString ('x' :: nl :: (fileHeader ++ nl :: fileHeader)) 100 0).length ≠ 2 := by
  decide

/-- C9, amended: for a text with exactly two lines beginning with `"diff --git"`
and total size at most `budget`, the lines are `pre ++ d1 :: A ++ d2 :: B` with
`d1`, `d2` the two file headers, and `chunkString(s, budget, 0)` returns the two
file sections `d1 :: A` and `d2 :: B` as one chunk each, preceded by one more
chunk holding `pre` when the text does not start with a file header. In
particular it returns exactly 2 chunks when the first line is a file header. -/
theorem chunkString_two_files (s : GoString) (budget : Int)
    (hcount : (Split s).countP (fun l => HasPrefix l fileHeader) = 2)
    (hsize : totalSize (Split s) ≤ budget) :
    ∃ (pre : List GoString) (d1 : GoString) (A : List GoString) (d2 : GoString)
      (B : List GoString),
      Split s = pre ++ d1 :: A ++ d2 :: B ∧
      HasPrefix d1 fileHeader = true ∧ HasPrefix d2 fileHeader = true ∧
      (∀ l ∈ pre ++ A ++ B, HasPrefix l fileHeader = false) ∧
      chunkString s budget 0
        = (if pre = [] then [] else [unlines pre]) ++ [unlines (d1 :: A), unlines (d2 :: B)] ∧
      ((∃ l rest, Split s = l :: rest ∧ HasPrefix l fileHeader = true) →
        chunkString s budget 0 = [unlines (d1 :: A), unlines (d2 :: B)]) := by
  obtain ⟨pre, d1, R1, h1, hpre, hd1, hR1⟩ :=
    exists_first_header (fun l => HasPrefix l fileHeader) 1 (Split s) hcount
  obtain ⟨A, d2, B, h2, hA, hd2, hB⟩ :=
    exists_first_header (fun l => HasPrefix l fileHeader) 0 R1 hR1
  subst h2
  have hB2 : ∀ l ∈ B, HasPrefix l fileHeader = false := by
    intro l hl
    have := List.countP_eq_zero.mp hB l hl
    simpa using this
  have hsplit : Split s = pre ++ d1 :: A ++ d2 :: B := by
    rw [h1]; simp
  have hsz : totalSize pre + (totalSize (d1 :: A) + totalSize (d2 :: B)) ≤ budget := by
    rw [h1, totalSize_append] at hsize
    have e : d1 :: (A ++ d2 :: B) = (d1 :: A) ++ d2 :: B := by simp
    rw [e, totalSize_append] at hsize
    exact hsize
  have hp0 := totalSize_nonneg pre
  have ha0 := totalSize_nonneg (d1 :: A)
  have hb0 := totalSize_nonneg (d2 :: B)
  have htail : ∀ done : List (List GoString),
      lineLoop budget (d1 :: A ++ d2 :: B) ⟨done, []⟩
        = ⟨done ++ [d1 :: A, d2 :: B], []⟩ := by
    intro done
    rw [lineLoop_section budget d1 A (d2 :: B) done hd1 hA (by omega) (by simpa [endsChunk] using hd2)]
    have := lineLoop_section budget d2 B [] (done ++ [d1 :: A]) hd2 hB2 (by omega) rfl
    rw [List.append_nil] at this
    rw [this]
    simp [lineLoop]
  have hchunks : chunkLines s budget
      = (if pre = [] then [] else [pre]) ++ [d1 :: A, d2 :: B] := by
    unfold chunkLines
    rw [hsplit]
    by_cases hp : pre = []
    · subst hp
      simp only [List.nil_append, if_true]
      rw [htail]
      simp
    · simp only [hp, if_false]
      rw [List.append_assoc, lineLoop_run budget pre (d1 :: A ++ d2 :: B) [] [] hpre
        (by simp only [totalSize]; omega) (by simpa [endsChunk] using hd1) hp]
      rw [htail]
      simp
  have hres : chunkString s budget 0
      = (if pre = [] then [] else [unlines pre]) ++ [unlines (d1 :: A), unlines (d2 :: B)] := by
    rw [chunkString_zero, hchunks]
    by_cases hp : pre = [] <;> simp [hp]
  refine ⟨pre, d1, A, d2, B, hsplit, hd1, hd2, ?_, hres, ?_⟩
  · intro l hl
    simp only [List.mem_append] at hl
    rcases hl with (hl | hl) | hl
    · exact hpre l hl
    · exact hA l hl
    · exact hB2 l hl
  · rintro ⟨l, rest, hl, hlp⟩
    have hp : pre = [] := by
      cases pre with
      | nil => rfl
      | cons x xs =>
        rw [hsplit] at hl
        simp only [List.cons_append, List.append_assoc, List.cons.injEq] at hl
        have := hpre x (by simp)
        rw [hl.1] at this
        rw [this] at hlp
        exact absurd hlp (by decide)
    rw [hres, hp]
    simp

/-- Witness of C9 (amended) on the text `"diff --git\ndiff --git"` with budget 100. -/
theorem chunkString_two_files_witness :
    ∃ (pre : List GoString) (d1 : GoString) (A : List GoString) (d2 : GoString)
      (B : List GoString),
      Split (fileHeader ++ nl :: fileHeader) = pre ++ d1 :: A ++ d2 :: B ∧
      HasPrefix d1 fileHeader = true ∧ HasPrefix d2 fileHeader = true ∧
      (∀ l ∈ pre ++ A ++ B, HasPrefix l fileHeader = false) ∧
      chunkString (fileHeader ++ nl :: fileHeader) 100 0
        = (if pre = [] then [] else [unlines pre]) ++ [unlines (d1 :: A), unlines (d2 :: B)] ∧
      ((∃ l rest, Split (fileHeader ++ nl :: fileHeader) = l :: rest ∧
          HasPrefix l fileHeader = true) →
        chunkString (fileHeader ++ nl :: fileHeader) 100 0
          = [unlines (d1 :: A), unlines (d2 :: B)]) :=
  chunkString_two_files (fileHeader ++ nl :: fileHeader) 100 (by decide) (by decide)

/-! ## The overlap pass -/

theorem Split_append_nl (a c : GoString) : Split (a ++ nl :: c) = Split a ++ Split c := by
  induction a with
  | nil => simp [Split]
  | cons x xs ih =>
    by_cases hx : x = nl
    · simp [Split, hx, ih]
    · cases hs : Split xs with
      | nil => exact absurd hs (Split_ne_nil xs)
      | cons piece pieces =>
        rw [hs] at ih
        rw [List.cons_append]
        simp only [Split, hx, if_false]
        rw [ih, hs]
        rfl

theorem overlapLoop_fold (k : Nat) (pre : List GoString) (prev : GoString)
    (cs : List GoString) :
    (List.range' (pre.length + 1) cs.length).foldl
        (fun l i => l.set i (getOverlapLines (l.getD (i - 1) []) k ++ l.getD i []))
        (pre ++ prev :: cs)
      = pre ++ prev :: overlapFrom k prev cs := by
  induction cs generalizing pre prev with
  | nil => simp [overlapFrom]
  | cons c cs ih =>
    have hstep : (pre ++ prev :: c :: cs).set (pre.length + 1)
        (getOverlapLines ((pre ++ prev :: c :: cs).getD (pre.length + 1 - 1) []) k
          ++ (pre ++ prev :: c :: cs).getD (pre.length + 1) [])
        = (pre ++ [prev]) ++ (getOverlapLines prev k ++ c) :: cs := by
      have e : pre ++ prev :: c :: cs = (pre ++ [prev]) ++ c :: cs := by simp
      have h1 : (pre ++ prev :: c :: cs).getD (pre.length + 1 - 1) [] = prev := by
        rw [Nat.add_sub_cancel, List.getD_eq_getElem?_getD,
          List.getElem?_append_right (Nat.le_refl _)]
        simp
      have h2 : (pre ++ prev :: c :: cs).getD (pre.length + 1) [] = c := by
        rw [e, List.getD_eq_getElem?_getD,
          List.getElem?_append_right (by simp)]
        simp
      rw [h1, h2, e, List.set_append_right _ _ (by simp)]
      simp
    rw [List.length_cons, List.range'_succ, List.foldl_cons, hstep]
    have := ih (pre ++ [prev]) (getOverlapLines prev k ++ c)
    simp only [List.length_append, List.length_singleton] at this
    rw [this]
    simp [overlapFrom]

theorem overlapLoop_cons (k : Nat) (c0 : GoString) (cs : List GoString) :
    overlapLoop k (c0 :: cs) = c0 :: overlapFrom k c0 cs := by
  have := overlapLoop_fold k [] c0 cs
  simpa [overlapLoop] using this

theorem overlapFrom_length (k : Nat) (prev : GoString) (cs : List GoString) :
    (overlapFrom k prev cs).length = cs.length := by
  induction cs generalizing prev with
  | nil => rfl
  | cons c cs ih => simp [overlapFrom, ih]

theorem chunkString_pos (s : GoString) (b : Int) (k : Nat) (hk : 0 < k) :
    chunkString s b (k : Int)
      = match chunkString s b 0 with
        | [] => []
        | c0 :: cs => c0 :: overlapFrom k c0 cs := by
  have h0 : chunkString s b 0 = (chunkLoop b (Split s) ⟨[], [], 0⟩).chunks := by
    simp [chunkString]
  have hk2 : (k : Int) > 0 := by omega
  rw [h0]
  unfold chunkString
  simp only [hk2, true_and, Int.toNat_ofNat]
  cases hc : (chunkLoop b (Split s) ⟨[], [], 0⟩).chunks with
  | nil => simp
  | cons c0 cs =>
    cases cs with
    | nil => simp [overlapFrom]
    | cons c1 cs2 =>
      simp only [List.length_cons, gt_iff_lt, Nat.lt_add_left_iff_pos, Nat.zero_lt_succ, if_true]
      exact overlapLoop_cons k c0 (c1 :: cs2)

theorem overlapFrom_getElem? (k : Nat) (c0 : GoString) (cs : List GoString) (i : Nat)
    (p o : GoString) (hp : (c0 :: overlapFrom k c0 cs)[i]? = some p)
    (ho : (c0 :: cs)[i + 1]? = some o) :
    (c0 :: overlapFrom k c0 cs)[i + 1]? = some (getOverlapLines p k ++ o) := by
  induction cs generalizing c0 i with
  | nil => simp at ho
  | cons c cs ih =>
    cases i with
    | zero =>
      simp only [List.getElem?_cons_zero, Option.some.injEq] at hp
      simp only [List.getElem?_cons_succ, List.getElem?_cons_zero, Option.some.injEq] at ho
      subst hp ho
      simp [overlapFrom]
    | succ j =>
      simp only [List.getElem?_cons_succ, overlapFrom] at hp ho ⊢
      have := ih (getOverlapLines c0 k ++ c) j hp (by simpa using ho)
      simpa using this

theorem getOverlapLines_append (k : Nat) (P c : GoString)
    (hP : P = [] ∨ ∃ Q, P = Q ++ [nl]) (hk : k < (Split c).length) :
    getOverlapLines (P ++ c) k = getOverlapLines c k := by
  rcases hP with rfl | ⟨Q, rfl⟩
  · rfl
  · have e : Q ++ [nl] ++ c = Q ++ nl :: c := by simp
    rw [e]
    unfold getOverlapLines
    simp only [Split_append_nl, List.length_append]
    rw [if_neg (by omega), if_neg (by omega)]
    congr 2
    rw [List.drop_append_eq_append_drop]
    have h1 : (Split Q).length + (Split c).length - k - (Split Q).length
        = (Split c).length - k := by omega
    rw [h1, List.drop_of_length_le (by omega)]
    rfl

theorem getOverlapLines_endsNl (k : Nat) (x : GoString) (hx : ∃ y, x = y ++ [nl]) :
    ∃ y, getOverlapLines x k = y ++ [nl] := by
  unfold getOverlapLines
  by_cases h : (Split x).length ≤ k
  · simp only [h, if_true]
    exact hx
  · simp only [h, if_false]
    exact ⟨_, rfl⟩

theorem overlapFrom_uncascaded (k : Nat) (c0 : GoString) (cs : List GoString) (P : GoString)
    (hP : P = [] ∨ ∃ Q, P = Q ++ [nl])
    (hends : ∀ c ∈ c0 :: cs, ∃ y, c = y ++ [nl]) (i : Nat) (q o : GoString)
    (hq : (c0 :: cs)[i]? = some q) (ho : (c0 :: cs)[i + 1]? = some o)
    (hk : k < (Split q).length) :
    ((P ++ c0) :: overlapFrom k (P ++ c0) cs)[i + 1]? = some (getOverlapLines q k ++ o) := by
  induction cs generalizing c0 P i with
  | nil => simp at ho
  | cons c cs ih =>
    cases i with
    | zero =>
      simp only [List.getElem?_cons_zero, Option.some.injEq] at hq
      simp only [List.getElem?_cons_succ, List.getElem?_cons_zero, Option.some.injEq] at ho
      subst hq ho
      simp [overlapFrom, getOverlapLines_append k P _ hP hk]
    | succ j =>
      simp only [List.getElem?_cons_succ, overlapFrom] at hq ho ⊢
      have hc0 : ∃ y, P ++ c0 = y ++ [nl] := by
        obtain ⟨y, hy⟩ := hends c0 (by simp)
        exact ⟨P ++ y, by rw [hy]; simp⟩
      have := ih c (getOverlapLines (P ++ c0) k)
        (Or.inr (getOverlapLines_endsNl k _ hc0))
        (fun x hx => hends x (List.mem_cons_of_mem _ hx)) j hq
        (by simpa using ho)
      simpa using this

theorem unlines_endsNl (g : List GoString) (hg : g ≠ []) : ∃ y, unlines g = y ++ [nl] := by
  induction g with
  | nil => exact absurd rfl hg
  | cons l ls ih =>
    cases ls with
    | nil => exact ⟨l, by simp [unlines]⟩
    | cons l2 ls2 =>
      obtain ⟨y, hy⟩ := ih (by simp)
      exact ⟨l ++ nl :: y, by simp only [unlines] at hy ⊢; rw [hy]; simp⟩

theorem chunkString_zero_endsNl (s : GoString) (b : Int) :
    ∀ c ∈ chunkString s b 0, ∃ y, c = y ++ [nl] := by
  intro c hc
  rw [chunkString_zero, List.mem_map] at hc
  obtain ⟨g, hg, rfl⟩ := hc
  exact unlines_endsNl g (chunkLines_inv s b (fun _ => True) (fun _ => trivial)
    (fun _ _ _ _ _ _ => trivial) g hg).1

theorem Split_of_not_mem (r : GoString) (hr : nl ∉ r) : Split r = [r] := by
  induction r with
  | nil => rfl
  | cons c cs ih =>
    have hc : c ≠ nl := fun h => hr (by simp [h])
    have hcs : nl ∉ cs := fun h => hr (by simp [h])
    simp [Split, hc, ih hcs]

theorem Split_unlines (g : List GoString) (hg : ∀ l ∈ g, nl ∉ l) :
    Split (unlines g) = g ++ [[]] := by
  induction g with
  | nil => rfl
  | cons l ls ih =>
    simp only [unlines]
    rw [Split_append_nl, Split_of_not_mem l (hg l (by simp)),
      ih (fun x hx => hg x (by simp [hx]))]
    rfl

theorem Join_append_empty (xs : List GoString) : Join (xs ++ [[]]) = unlines xs := by
  induction xs with
  | nil => rfl
  | cons x xs ih =>
    cases hxs : xs ++ [[]] with
    | nil => simp at hxs
    | cons q ps =>
      rw [List.cons_append, hxs]
      simp only [Join, unlines]
      rw [← hxs, ih]

/-- What `getOverlapLines` returns on a chunk of newline-terminated lines for
`overlap = k > 0`: the whole chunk when it has fewer than `k` lines, and
otherwise its last `k - 1` lines followed by one empty line. -/
theorem getOverlapLines_unlines (g : List GoString) (k : Nat) (hg : ∀ l ∈ g, nl ∉ l)
    (hk : 0 < k) :
    getOverlapLines (unlines g) k
      = if g.length < k then unlines g
        else unlines (g.drop (g.length + 1 - k)) ++ [nl] := by
  unfold getOverlapLines
  simp only [Split_unlines g hg, List.length_append, List.length_singleton]
  by_cases h : g.length < k
  · rw [if_pos (by omega), if_pos h]
  · rw [if_neg (by omega), if_neg h]
    rw [List.drop_append_of_le_length (by omega), Join_append_empty]

/-- C3, at the failing input: for the chunk `"a\nb\nc\nd\ne\n"` (five lines) and
the overlap 5 that `chunkAndSummarizeDiff` passes, `getOverlapLines` returns
`"b\nc\nd\ne\n\n"`, the last four lines followed by an empty line, and not the
five lines of the chunk: `strings.Split` of a newline-terminated chunk ends with
an empty piece, which takes one of the `overlap` places. The text
`"a\nb\nc\nd\ne\nf"` with budget 10 reaches this call inside `chunkString`. -/
theorem getOverlapLines_five_lines :
    (['a', nl, 'b', nl, 'c', nl, 'd', nl, 'e', nl] : GoString)
      = unlines [['a'], ['b'], ['c'], ['d'], ['e']] ∧
    getOverlapLines ['a', nl, 'b', nl, 'c', nl, 'd', nl, 'e', nl] 5
      = ['b', nl, 'c', nl, 'd', nl, 'e', nl, nl] ∧
    getOverlapLines ['a', nl, 'b', nl, 'c', nl, 'd', nl, 'e', nl] 5
      ≠ unlines [['a'], ['b'], ['c'], ['d'], ['e']] ∧
    chunkString ['a', nl, 'b', nl, 'c', nl, 'd', nl, 'e', nl, 'f'] 10 0
      = [['a', nl, 'b', nl, 'c', nl, 'd', nl, 'e', nl], ['f', nl]] ∧
    chunkString ['a', nl, 'b', nl, 'c', nl, 'd', nl, 'e', nl, 'f'] 10 5
      = [['a', nl, 'b', nl, 'c', nl, 'd', nl, 'e', nl],
         ['b', nl, 'c', nl, 'd', nl, 'e', nl, nl, 'f', nl]] := by
  decide

/-- C4, counterexample: for the text `"a\nb\nc"` with budget 2 and overlap 5 the
chunks before overlap are `"a\n"`, `"b\n"`, `"c\n"`; chunk 2 of the result is
`"a\nb\nc\n"`, while the overlap of the original chunk 1 followed by the
original chunk 2 is `"b\nc\n"`. -/
theorem chunkString_overlap_counterexample :
    chunkString ['a', nl, 'b', nl, 'c'] 2 0 = [['a', nl], ['b', nl], ['c', nl]] ∧
    (chunkString ['a', nl, 'b', nl, 'c'] 2 5)[2]? = some ['a', nl, 'b', nl, 'c', nl] ∧
    getOverlapLines ((chunkString ['a', nl, 'b', nl, 'c'] 2 0).getD 1 []) 5
        ++ (chunkString ['a', nl, 'b', nl, 'c'] 2 0).getD 2 [] = ['b', nl, 'c', nl] ∧
    (chunkString ['a', nl, 'b', nl, 'c'] 2 5)[2]?
      ≠ some (getOverlapLines ((chunkString ['a', nl, 'b', nl, 'c'] 2 0).getD 1 []) 5
          ++ (chunkString ['a', nl, 'b', nl, 'c'] 2 0).getD 2 []) := by
  decide

/-- C4, amended: for overlap `k > 0` the result of `chunkString(s, budget, k)` has
as many chunks as `orig = chunkString(s, budget, 0)`, chunk 0 is `orig[0]`, and
chunk `i + 1` is `getOverlapLines(p, k)` followed by `orig[i+1]`, where `p` is
chunk `i` of the result, that is, the preceding chunk with its own overlap
prefix. This is `getOverlapLines(orig[i], k)` followed by `orig[i+1]` when
`i = 0` or when `orig[i]` splits into more than `k` pieces. -/
theorem chunkString_overlap (s : GoString) (budget : Int) (k : Nat) (hk : 0 < k) :
    (chunkString s budget (k : Int)).length = (chunkString s budget 0).length ∧
    (chunkString s budget (k : Int))[0]? = (chunkString s budget 0)[0]? ∧
    ∀ (i : Nat) (p q o : GoString),
      (chunkString s budget (k : Int))[i]? = some p →
      (chunkString s budget 0)[i]? = some q →
      (chunkString s budget 0)[i + 1]? = some o →
      (chunkString s budget (k : Int))[i + 1]? = some (getOverlapLines p k ++ o) ∧
      ((i = 0 ∨ k < (Split q).length) →
        (chunkString s budget (k : Int))[i + 1]? = some (getOverlapLines q k ++ o)) := by
  have hends := chunkString_zero_endsNl s budget
  rw [chunkString_pos s budget k hk]
  cases horig : chunkString s budget 0 with
  | nil => simp
  | cons c0 cs =>
    rw [horig] at hends
    simp only
    refine ⟨by simp [overlapFrom_length], by simp, ?_⟩
    intro i p q o hp hq ho
    have h1 := overlapFrom_getElem? k c0 cs i p o hp ho
    refine ⟨h1, ?_⟩
    rintro (rfl | hlen)
    · simp only [List.getElem?_cons_zero, Option.some.injEq] at hp hq
      rw [← hq, hp]
      rw [hp] at h1
      exact h1
    · have := overlapFrom_uncascaded k c0 cs [] (Or.inl rfl) hends i q o hq ho hlen
      simpa using this

/-- Witness of C4 (amended) on the text `"a\nb\nc"` with budget 2 and overlap 5. -/
theorem chunkString_overlap_witness :
    (chunkString ['a', nl, 'b', nl, 'c'] 2 ((5 : Nat) : Int)).length
      = (chunkString ['a', nl, 'b', nl, 'c'] 2 0).length ∧
    (chunkString ['a', nl, 'b', nl, 'c'] 2 ((5 : Nat) : Int))[0]?
      = (chunkString ['a', nl, 'b', nl, 'c'] 2 0)[0]? ∧
    ∀ (i : Nat) (p q o : GoString),
      (chunkString ['a', nl, 'b', nl, 'c'] 2 ((5 : Nat) : Int))[i]? = some p →
      (chunkString ['a', nl, 'b', nl, 'c'] 2 0)[i]? = some q →
      (chunkString ['a', nl, 'b', nl, 'c'] 2 0)[i + 1]? = some o →
      (chunkString ['a', nl, 'b', nl, 'c'] 2 ((5 : Nat) : Int))[i + 1]?
          = some (getOverlapLines p 5 ++ o) ∧
      ((i = 0 ∨ 5 < (Split q).length) →
        (chunkString ['a', nl, 'b', nl, 'c'] 2 ((5 : Nat) : Int))[i + 1]?
          = some (getOverlapLines q 5 ++ o)) :=
  chunkString_overlap ['a', nl, 'b', nl, 'c'] 2 5 (by decide)


/-! ## The reduction -/

theorem chunkString_five_length (s : GoString) (b : Int) :
    (chunkString s b 5).length = (chunkLines s b).length := by
  have h := chunkString_pos s b 5 (by decide)
  have e : ((5 : Nat) : Int) = 5 := rfl
  rw [e] at h
  rw [h, chunkString_zero]
  cases (chunkLines s b) with
  | nil => rfl
  | cons g gs => simp [overlapFrom_length]

theorem chunkLines_length_pos (s : GoString) (b : Int) : 1 ≤ (chunkLines s b).length := by
  have h := chunkLines_flatten s b
  cases hc : chunkLines s b with
  | nil =>
    rw [hc] at h
    exact absurd h.symm (Split_ne_nil s)
  | cons g gs => simp

theorem chunkString_five_ne_nil (s : GoString) (b : Int) : chunkString s b 5 ≠ [] := by
  intro h
  have h1 := chunkString_five_length s b
  have h2 := chunkLines_length_pos s b
  rw [h] at h1
  simp at h1
  omega

theorem Join_append_nl (xs : List GoString) (hne : xs ≠ []) :
    Join xs ++ [nl] = unlines xs := by
  induction xs with
  | nil => exact absurd rfl hne
  | cons x xs ih =>
    cases xs with
    | nil => simp [Join, unlines]
    | cons y ys =>
      have := ih (by simp)
      simp only [Join, unlines, List.append_assoc, List.cons_append] at this ⊢
      rw [this]

theorem Join_eq_dropLast (xs : List GoString) : Join xs = (unlines xs).dropLast := by
  cases xs with
  | nil => rfl
  | cons x ys =>
    rw [← Join_append_nl (x :: ys) (by simp)]
    simp

theorem length_Join (xs : List GoString) (hne : xs ≠ []) :
    ((Join xs).length : Int) = totalSize xs - 1 := by
  have h := congrArg List.length (Join_append_nl xs hne)
  have h2 := length_unlines xs
  simp only [List.length_append, List.length_singleton] at h
  omega

theorem answers_length {σ ε : Type} (f : GoString → Config → σ → (GoString × Option ε) × σ)
    (config : Config) (chunks : List GoString) (w : σ) (summaries : List GoString) (w1 : σ)
    (h : answers f config chunks w = some (summaries, w1)) :
    summaries.length = chunks.length := by
  induction chunks generalizing w summaries with
  | nil =>
    simp only [answers, Option.some.injEq, Prod.mk.injEq] at h
    rw [← h.1]
  | cons c cs ih =>
    rcases hfc : f c config w with ⟨⟨s, _ | e⟩, w2⟩
    · rcases hrest : answers f config cs w2 with _ | ⟨ss, w3⟩
      · simp [answers, hfc, hrest] at h
      · simp only [answers, hfc, hrest, Option.some.injEq, Prod.mk.injEq] at h
        obtain ⟨hs, rfl⟩ := h
        rw [← hs]
        simp [ih w2 ss hrest]
    · simp [answers, hfc] at h

theorem summarizeLoop_answers {σ ε : Type}
    (f : GoString → Config → σ → (GoString × Option ε) × σ) (config : Config)
    (chunks acc : List GoString) (w : σ) (calls summaries : List GoString) (w1 : σ)
    (h : answers f config chunks w = some (summaries, w1)) :
    summarizeLoop f config chunks acc w calls
      = ((acc ++ summaries, none), w1, calls ++ chunks) := by
  induction chunks generalizing w acc calls summaries with
  | nil =>
    simp only [answers, Option.some.injEq, Prod.mk.injEq] at h
    simp [summarizeLoop, ← h.1, ← h.2]
  | cons c cs ih =>
    rcases hfc : f c config w with ⟨⟨s, _ | e⟩, w2⟩
    · rcases hrest : answers f config cs w2 with _ | ⟨ss, w3⟩
      · simp [answers, hfc, hrest] at h
      · simp only [answers, hfc, hrest, Option.some.injEq, Prod.mk.injEq] at h
        obtain ⟨hs, rfl⟩ := h
        simp only [summarizeLoop, hfc]
        rw [ih (acc ++ [s]) w2 (calls ++ [c]) ss hrest, ← hs]
        simp
    · simp [answers, hfc] at h

theorem summarizeLoop_fails {σ ε : Type}
    (f : GoString → Config → σ → (GoString × Option ε) × σ) (config : Config)
    (pre : List GoString) (c : GoString) (post acc : List GoString) (w : σ)
    (calls summaries : List GoString) (wj : σ) (s : GoString) (e : ε) (w1 : σ)
    (hok : answers f config pre w = some (summaries, wj))
    (hfail : f c config wj = ((s, some e), w1)) :
    summarizeLoop f config (pre ++ c :: post) acc w calls
      = ((acc ++ summaries, some e), w1, calls ++ pre ++ [c]) := by
  induction pre generalizing w acc calls summaries with
  | nil =>
    simp only [answers, Option.some.injEq, Prod.mk.injEq] at hok
    rw [← hok.2] at hfail
    simp [summarizeLoop, hfail, ← hok.1]
  | cons x xs ih =>
    rcases hfx : f x config w with ⟨⟨sx, _ | ex⟩, w2⟩
    · rcases hrest : answers f config xs w2 with _ | ⟨ss, w3⟩
      · simp [answers, hfx, hrest] at hok
      · simp only [answers, hfx, hrest, Option.some.injEq, Prod.mk.injEq] at hok
        obtain ⟨hs, rfl⟩ := hok
        rw [List.cons_append]
        simp only [summarizeLoop, hfx]
        rw [ih (acc ++ [sx]) w2 (calls ++ [x]) ss hrest, ← hs]
        simp
    · simp [answers, hfx] at hok

/-- A round whose chunks are all summarized and whose joined summaries exceed
`ContextLength` hands the joined summaries to the next round. -/
theorem chunkAndSummarizeDiff_next {σ ε : Type}
    (f : GoString → Config → σ → (GoString × Option ε) × σ) (fuel : Nat) (diff : GoString)
    (config : Config) (w : σ) (calls summaries : List GoString) (w1 : σ)
    (hok : answers f config (chunkString diff config.ContextLength 5) w = some (summaries, w1))
    (hbig : totalSize summaries - 1 > config.ContextLength) :
    chunkAndSummarizeDiff f (fuel + 1) diff config w calls
      = chunkAndSummarizeDiff f fuel (unlines summaries).dropLast config w1
          (calls ++ chunkString diff config.ContextLength 5) := by
  have hne : summaries ≠ [] := by
    intro h
    have := answers_length f config _ w summaries w1 hok
    rw [h] at this
    exact chunkString_five_ne_nil diff config.ContextLength (List.length_eq_zero.mp this.symm)
  rw [chunkAndSummarizeDiff]
  simp only [summarizeLoop_answers f config _ [] w calls summaries w1 hok, List.nil_append]
  rw [if_pos (by rw [length_Join summaries hne]; exact hbig), Join_eq_dropLast]

/-- A round whose chunks are all summarized and whose joined summaries fit
`ContextLength` returns the joined summaries. -/
theorem chunkAndSummarizeDiff_done {σ ε : Type}
    (f : GoString → Config → σ → (GoString × Option ε) × σ) (fuel : Nat) (diff : GoString)
    (config : Config) (w : σ) (calls summaries : List GoString) (w1 : σ)
    (hok : answers f config (chunkString diff config.ContextLength 5) w = some (summaries, w1))
    (hfit : totalSize summaries - 1 ≤ config.ContextLength) :
    chunkAndSummarizeDiff f (fuel + 1) diff config w calls
      = (some (Join summaries, none), w1, calls ++ chunkString diff config.ContextLength 5) := by
  have hne : summaries ≠ [] := by
    intro h
    have := answers_length f config _ w summaries w1 hok
    rw [h] at this
    exact chunkString_five_ne_nil diff config.ContextLength (List.length_eq_zero.mp this.symm)
  rw [chunkAndSummarizeDiff]
  simp only [summarizeLoop_answers f config _ [] w calls summaries w1 hok, List.nil_append]
  rw [if_neg (by rw [length_Join summaries hne]; omega)]

theorem chunkAndSummarizeDiff_roundInput {σ ε : Type}
    (f : GoString → Config → σ → (GoString × Option ε) × σ) (config : Config) (n fuel : Nat)
    (diff : GoString) (w : σ) (calls : List GoString) (d : GoString) (wn : σ)
    (cn : List GoString) (h : roundInput f config n diff w calls = some (d, wn, cn)) :
    chunkAndSummarizeDiff f (n + fuel) diff config w calls
      = chunkAndSummarizeDiff f fuel d config wn cn := by
  induction n generalizing diff w calls with
  | zero =>
    simp only [roundInput, Option.some.injEq, Prod.mk.injEq] at h
    obtain ⟨rfl, rfl, rfl⟩ := h
    simp
  | succ n ih =>
    rcases hans : answers f config (chunkString diff config.ContextLength 5) w
      with _ | ⟨ss, w1⟩
    · simp [roundInput, hans] at h
    · simp only [roundInput, hans] at h
      by_cases hbig : totalSize ss - 1 > config.ContextLength
      · rw [if_pos hbig] at h
        have e : n + 1 + fuel = (n + fuel) + 1 := by omega
        rw [e, chunkAndSummarizeDiff_next f (n + fuel) diff config w calls ss w1 hans hbig]
        exact ih _ _ _ h
      · rw [if_neg hbig] at h
        exact absurd h (by simp)

/-- C6: in any round of the reduction (round `n`, reached after `n` rounds that
summarized all their chunks and whose joined summaries were too long), when the
summarizer answers the chunks before index `j` and fails with `err` on chunk `j`,
`chunkAndSummarizeDiff` returns the empty text with that error to its caller, and
the summarizer invocations of that round are exactly chunks `0..j` in order: no
chunk after `j` is summarized. The backend is stateful, so the failing chunk may
repeat the text of an earlier one. -/
theorem chunkAndSummarizeDiff_fails_fast {σ ε : Type}
    (summarizeDiff : GoString → Config → σ → (GoString × Option ε) × σ) (config : Config)
    (n fuel : Nat) (diff : GoString) (w : σ) (calls : List GoString)
    (d : GoString) (wn : σ) (cn : List GoString)
    (hround : roundInput summarizeDiff config n diff w calls = some (d, wn, cn))
    (j : Nat) (chunk : GoString) (summaries : List GoString) (wj : σ)
    (s : GoString) (err : ε) (w1 : σ)
    (hj : (chunkString d config.ContextLength 5)[j]? = some chunk)
    (hok : answers summarizeDiff config ((chunkString d config.ContextLength 5).take j) wn
      = some (summaries, wj))
    (hfail : summarizeDiff chunk config wj = ((s, some err), w1)) :
    chunkAndSummarizeDiff summarizeDiff (n + (fuel + 1)) diff config w calls
      = (some ([], some err), w1,
         cn ++ (chunkString d config.ContextLength 5).take (j + 1)) := by
  have hlt : j < (chunkString d config.ContextLength 5).length := by
    by_contra hge
    rw [List.getElem?_eq_none (by omega)] at hj
    exact absurd hj (by simp)
  have hget : (chunkString d config.ContextLength 5)[j] = chunk := by
    rw [List.getElem?_eq_getElem hlt] at hj
    exact Option.some.inj hj
  have hsplit : chunkString d config.ContextLength 5
      = (chunkString d config.ContextLength 5).take j
        ++ chunk :: (chunkString d config.ContextLength 5).drop (j + 1) := by
    rw [← hget, ← List.drop_eq_getElem_cons hlt, List.take_append_drop]
  have htake : (chunkString d config.ContextLength 5).take (j + 1)
      = (chunkString d config.ContextLength 5).take j ++ [chunk] := by
    rw [← hget, List.take_succ, List.getElem?_eq_getElem hlt]
    rfl
  rw [chunkAndSummarizeDiff_roundInput summarizeDiff config n (fuel + 1) diff w calls d wn cn
    hround]
  rw [chunkAndSummarizeDiff]
  have hloop := summarizeLoop_fails summarizeDiff config
    ((chunkString d config.ContextLength 5).take j) chunk
    ((chunkString d config.ContextLength 5).drop (j + 1)) [] wn cn summaries wj s err w1
    hok hfail
  rw [← hsplit] at hloop
  simp only [hloop, htake, List.append_assoc]

set_option maxRecDepth 100000 in
/-- With budget 10 and overlap 5, chunks 1 and 2 of fifteen lines `"x"` are the same
text: the four last lines of the chunk before, an empty line, and five lines. -/
theorem chunkString_repeated_chunk :
    (chunkString (Join (List.replicate 15 ['x'])) 10 5)[1]?
      = some ['x', nl, 'x', nl, 'x', nl, 'x', nl, nl, 'x', nl, 'x', nl, 'x', nl, 'x', nl, 'x',
          nl] ∧
    (chunkString (Join (List.replicate 15 ['x'])) 10 5)[2]?
      = some ['x', nl, 'x', nl, 'x', nl, 'x', nl, nl, 'x', nl, 'x', nl, 'x', nl, 'x', nl, 'x',
          nl] := by
  decide

set_option maxRecDepth 100000 in
/-- Witness of C6 with `ContextLength = 10` and a backend that counts its calls: the
first call answers the text `"a"` with fifteen lines `"x"`, too long, so a second
round starts from these lines; its chunks 1 and 2 have the same text, the backend
answers `"s"` to chunks 0 and 1 and fails with 500 on chunk 2 (its fourth call). -/
theorem chunkAndSummarizeDiff_fails_fast_witness :
    chunkAndSummarizeDiff
        (fun _ _ (w : Nat) =>
          if w = 0 then ((Join (List.replicate 15 ['x']), (none : Option Nat)), 1)
          else if w < 3 then ((['s'], none), w + 1)
          else (([], some 500), w + 1))
        (1 + (0 + 1)) ['a'] ⟨10⟩ 0 []
      = (some ([], some 500), 4,
         [['a', nl]]
          ++ (chunkString (Join (List.replicate 15 ['x'])) (Config.mk 10).ContextLength 5).take
              (2 + 1)) :=
  chunkAndSummarizeDiff_fails_fast
    (fun _ _ (w : Nat) =>
      if w = 0 then ((Join (List.replicate 15 ['x']), (none : Option Nat)), 1)
      else if w < 3 then ((['s'], none), w + 1)
      else (([], some 500), w + 1))
    ⟨10⟩ 1 0 ['a'] 0 [] (Join (List.replicate 15 ['x'])) 1 [['a', nl]]
    (by decide) 2
    ['x', nl, 'x', nl, 'x', nl, 'x', nl, nl, 'x', nl, 'x', nl, 'x', nl, 'x', nl, 'x', nl]
    [['s'], ['s']] 3 [] 500 4 (by decide) (by decide) (by decide)

/-- C10: when the summarizer answers every chunk of
`chunkString(text, ContextLength, 5)` without error, with `summaries` in chunk
order, and these summaries with one newline between neighbours are no longer than
`ContextLength`, `chunkAndSummarizeDiff` returns `strings.Join(summaries, "\\n")`
with no error after one round: there is one summary per chunk, the returned text
followed by a newline is every summary followed by a newline, and the summarizer
was invoked once on each chunk in chunk order. -/
theorem chunkAndSummarizeDiff_single_round {σ ε : Type}
    (summarizeDiff : GoString → Config → σ → (GoString × Option ε) × σ) (fuel : Nat)
    (text : GoString) (config : Config) (w : σ) (calls summaries : List GoString) (w1 : σ)
    (hok : answers summarizeDiff config (chunkString text config.ContextLength 5) w
      = some (summaries, w1))
    (hfit : totalSize summaries - 1 ≤ config.ContextLength) :
    chunkAndSummarizeDiff summarizeDiff (fuel + 1) text config w calls
      = (some (Join summaries, none), w1, calls ++ chunkString text config.ContextLength 5) ∧
    Join summaries ++ [nl] = unlines summaries ∧
    ((Join summaries).length : Int) = totalSize summaries - 1 ∧
    summaries.length = (chunkString text config.ContextLength 5).length := by
  have hlen := answers_length summarizeDiff config _ w summaries w1 hok
  have hne : summaries ≠ [] := by
    intro h
    rw [h] at hlen
    exact chunkString_five_ne_nil text config.ContextLength (List.length_eq_zero.mp hlen.symm)
  exact ⟨chunkAndSummarizeDiff_done summarizeDiff fuel text config w calls summaries w1 hok hfit,
    Join_append_nl summaries hne, length_Join summaries hne, hlen⟩

/-- Witness of C10 on the text `"a\\nb"` with `ContextLength = 3` and a backend that
answers `"s"` to its first call and `"t"` to the next: the result is `"s\\nt"`. -/
theorem chunkAndSummarizeDiff_single_round_witness :
    chunkAndSummarizeDiff
        (fun _ _ (w : Nat) => ((if w = 0 then ['s'] else ['t'], (none : Option Unit)), w + 1))
        (0 + 1) ['a', nl, 'b'] ⟨3⟩ 0 []
      = (some (Join [['s'], ['t']], none), 2,
         [] ++ chunkString ['a', nl, 'b'] (Config.mk 3).ContextLength 5) ∧
    Join [['s'], ['t']] ++ [nl] = unlines [['s'], ['t']] ∧
    ((Join [['s'], ['t']]).length : Int) = totalSize [['s'], ['t']] - 1 ∧
    ([['s'], ['t']] : List GoString).length
      = (chunkString ['a', nl, 'b'] (Config.mk 3).ContextLength 5).length :=
  chunkAndSummarizeDiff_single_round
    (fun _ _ (w : Nat) => ((if w = 0 then ['s'] else ['t'], (none : Option Unit)), w + 1))
    0 ['a', nl, 'b'] ⟨3⟩ 0 [] [['s'], ['t']] 2 (by decide) (by decide)

/-- C8, counterexample: on the empty text, which is no longer than
`summarizeThreshold`, `main` exits with status 2 ("No diff on stdin") before the
size gate: no text, and so not the input, is handed to the generator. -/
theorem main_empty_input :
    (([] : GoString).length : Int) ≤ summarizeThreshold ∧
    (main (fun _ _ (w : Unit) => ((['s'], (none : Option Unit)), w))
        (fun _ _ (w : Unit) => ((['m'], (none : Option Unit)), w)) 1 [] ⟨4096⟩ ()).outcome
      = some Outcome.noDiff ∧
    exitStatus (Outcome.noDiff : Outcome Unit) = 2 ∧
    (main (fun _ _ (w : Unit) => ((['s'], (none : Option Unit)), w))
        (fun _ _ (w : Unit) => ((['m'], (none : Option Unit)), w)) 1 [] ⟨4096⟩ ()).generateCalls
      = [] ∧
    (main (fun _ _ (w : Unit) => ((['s'], (none : Option Unit)), w))
        (fun _ _ (w : Unit) => ((['m'], (none : Option Unit)), w)) 1 [] ⟨4096⟩ ()).generateCalls
      ≠ [[]] := by
  decide

/-- C8, amended: for a non-empty input text with `len(text) ≤ summarizeThreshold`
(the constant 2000), whatever `ContextLength` is, `main` makes no summarizer call
and calls the generator exactly once, on the input text itself; the run ends with
what the generator returns for it. -/
theorem main_under_threshold {σ ε : Type}
    (summarizeDiff : GoString → Config → σ → (GoString × Option ε) × σ)
    (generateCommitMessage : GoString → Config → σ → (GoString × Option ε) × σ)
    (fuel : Nat) (text : GoString) (config : Config) (w : σ)
    (hne : text ≠ []) (hlen : (text.length : Int) ≤ summarizeThreshold) :
    summarizeThreshold = 2000 ∧
    (main summarizeDiff generateCommitMessage fuel text config w).summarizeCalls = [] ∧
    (main summarizeDiff generateCommitMessage fuel text config w).generateCalls = [text] ∧
    (main summarizeDiff generateCommitMessage fuel text config w).world
      = (generateCommitMessage text config w).2 ∧
    (main summarizeDiff generateCommitMessage fuel text config w).outcome
      = some (match (generateCommitMessage text config w).1 with
          | (_, some err) => Outcome.generateError err
          | (commitMessage, none) => Outcome.printed commitMessage) := by
  have h0 : ¬ text.length = 0 := fun h => hne (List.length_eq_zero.mp h)
  have h1 : ¬ (text.length : Int) > summarizeThreshold := by omega
  refine ⟨rfl, ?_⟩
  unfold main
  simp only [h0, h1, if_false]
  rcases hg : generateCommitMessage text config w with ⟨⟨m, _ | e⟩, w2⟩ <;> simp

/-- Witness of C8 (amended) on the text `"ab"` with a summarizer that always fails
and a generator that answers `"m"`. -/
theorem main_under_threshold_witness :
    summarizeThreshold = 2000 ∧
    (main (fun _ _ (w : Unit) => (([], some ()), w))
        (fun _ _ (w : Unit) => ((['m'], (none : Option Unit)), w)) 0 ['a', 'b'] ⟨1⟩
        ()).summarizeCalls = [] ∧
    (main (fun _ _ (w : Unit) => (([], some ()), w))
        (fun _ _ (w : Unit) => ((['m'], (none : Option Unit)), w)) 0 ['a', 'b'] ⟨1⟩
        ()).generateCalls = [['a', 'b']] ∧
    (main (fun _ _ (w : Unit) => (([], some ()), w))
        (fun _ _ (w : Unit) => ((['m'], (none : Option Unit)), w)) 0 ['a', 'b'] ⟨1⟩
        ()).world
      = ((fun _ _ (w : Unit) => ((['m'], (none : Option Unit)), w)) ['a', 'b'] (Config.mk 1)
          ()).2 ∧
    (main (fun _ _ (w : Unit) => (([], some ()), w))
        (fun _ _ (w : Unit) => ((['m'], (none : Option Unit)), w)) 0 ['a', 'b'] ⟨1⟩
        ()).outcome
      = some (match ((fun _ _ (w : Unit) => ((['m'], (none : Option Unit)), w)) ['a', 'b']
            (Config.mk 1) ()).1 with
          | (_, some err) => Outcome.generateError err
          | (commitMessage, none) => Outcome.printed commitMessage) :=
  main_under_threshold (fun _ _ (w : Unit) => (([], some ()), w))
    (fun _ _ (w : Unit) => ((['m'], (none : Option Unit)), w)) 0 ['a', 'b'] ⟨1⟩ ()
    (by decide) (by decide)

/-! ## Convergence of the reduction with a constant summarizer -/

/-- A run of lines without a file header that fits the budget together with the
open chunk is appended to the open chunk, which stays open when a further line
that is no file header follows. -/
theorem lineLoop_run_open (b : Int) (A R : List GoString) (done : List (List GoString))
    (cur : List GoString) (hA : ∀ l ∈ A, HasPrefix l fileHeader = false)
    (hfit : totalSize cur + totalSize A ≤ b) (hR : endsChunk R = false) :
    lineLoop b (A ++ R) ⟨done, cur⟩ = lineLoop b R ⟨done, cur ++ A⟩ := by
  induction A generalizing cur with
  | nil => simp
  | cons a A ih =>
    have ha : HasPrefix a fileHeader = false := hA a (by simp)
    have hsz : ¬ (totalSize cur + lineSize a > b) := by
      have := totalSize_nonneg A
      simp only [totalSize] at hfit
      omega
    have hends : endsChunk (A ++ R) = false := by
      cases A with
      | nil => simpa using hR
      | cons a2 A2 => simpa [endsChunk] using hA a2 (by simp)
    have hstep : lineStep b a (A ++ R) ⟨done, cur⟩ = ⟨done, cur ++ [a]⟩ := by
      simp [lineStep, ha, hsz, hends]
    rw [List.cons_append, lineLoop, hstep]
    rw [ih (cur ++ [a]) (fun l hl => hA l (by simp [hl])) ?_]
    · simp
    · rw [totalSize_append]
      simp only [totalSize] at hfit ⊢
      omega

/-- Counting chunks by size: when no line opens a file section, no line is larger
than `S` and `2 * S` fits the budget, a chunk is only closed before the last line
once it holds more than `S` bytes. So `S` times the number of chunks stays below
the bytes handed out plus `S`, and below the bytes of the lines still to come
plus `2 * S`. -/
theorem lineLoop_count (b S : Int) (hS : 2 * S ≤ b) (lines : List GoString)
    (done : List (List GoString)) (cur : List GoString) (hne : lines ≠ [])
    (hall : ∀ l ∈ lines, HasPrefix l fileHeader = false ∧ lineSize l ≤ S) :
    S * ((lineLoop b lines ⟨done, cur⟩).done.length : Int) + 1
        ≤ S * (done.length : Int) + totalSize cur + totalSize lines + S ∧
    S * ((lineLoop b lines ⟨done, cur⟩).done.length : Int) + 1
        ≤ S * (done.length : Int) + totalSize lines + 2 * S := by
  induction lines generalizing done cur with
  | nil => exact absurd rfl hne
  | cons l rest ih =>
    have hl := hall l (by simp)
    have hlpos := lineSize_pos l
    have hc0 := totalSize_nonneg cur
    have hcne : totalSize cur + lineSize l > b → cur ≠ [] := by
      intro hgt hnil
      rw [hnil] at hgt
      simp only [totalSize] at hgt
      omega
    cases rest with
    | nil =>
      by_cases hsz : totalSize cur + lineSize l > b
      · have hstep : lineStep b l [] ⟨done, cur⟩ = ⟨done ++ [cur] ++ [[l]], []⟩ := by
          simp [lineStep, hl.1, hsz, endsChunk, lineFlush, hcne hsz]
        rw [lineLoop, hstep]
        simp only [lineLoop, List.length_append, List.length_singleton, totalSize]
        push_cast
        constructor <;> nlinarith
      · have hstep : lineStep b l [] ⟨done, cur⟩ = ⟨done ++ [cur ++ [l]], []⟩ := by
          simp [lineStep, hl.1, hsz, endsChunk, lineFlush]
        rw [lineLoop, hstep]
        simp only [lineLoop, List.length_append, List.length_singleton, totalSize]
        push_cast
        constructor <;> nlinarith
    | cons l2 rest2 =>
      have hl2 := hall l2 (by simp)
      have hrest : ∀ x ∈ l2 :: rest2, HasPrefix x fileHeader = false ∧ lineSize x ≤ S :=
        fun x hx => hall x (List.mem_cons_of_mem _ hx)
      by_cases hsz : totalSize cur + lineSize l > b
      · have hstep : lineStep b l (l2 :: rest2) ⟨done, cur⟩ = ⟨done ++ [cur], [l]⟩ := by
          simp [lineStep, hl.1, hsz, endsChunk, hl2.1, lineFlush, hcne hsz]
        rw [lineLoop, hstep]
        have h := (ih (done ++ [cur]) [l] (by simp) hrest).1
        simp only [List.length_append, List.length_singleton, totalSize] at h ⊢
        push_cast at h ⊢
        constructor <;> nlinarith
      · have hstep : lineStep b l (l2 :: rest2) ⟨done, cur⟩ = ⟨done, cur ++ [l]⟩ := by
          simp [lineStep, hl.1, hsz, endsChunk, hl2.1]
        rw [lineLoop, hstep]
        have h := ih done (cur ++ [l]) (by simp) hrest
        rw [totalSize_append] at h
        simp only [totalSize] at h ⊢
        constructor <;> nlinarith [h.1, h.2]

theorem totalSize_Split (r : GoString) : totalSize (Split r) = lineSize r := by
  rw [← length_unlines, unlines_Split]
  simp [lineSize]

theorem lineSize_le_totalSize (xs : List GoString) (l : GoString) (hl : l ∈ xs) :
    lineSize l ≤ totalSize xs := by
  induction xs with
  | nil => simp at hl
  | cons x xs ih =>
    simp only [List.mem_cons] at hl
    simp only [totalSize]
    rcases hl with rfl | hl
    · have := totalSize_nonneg xs
      omega
    · have := ih hl
      have := lineSize_pos x
      omega

theorem totalSize_replicate (r : GoString) (m : Nat) :
    totalSize (List.replicate m r) = (m : Int) * lineSize r := by
  induction m with
  | zero => simp [totalSize]
  | succ n ih =>
    simp only [List.replicate_succ, totalSize, ih]
    push_cast
    ring

theorem totalSize_flatten_replicate (X : List GoString) (m : Nat) :
    totalSize (List.replicate m X).flatten = (m : Int) * totalSize X := by
  induction m with
  | zero => simp [totalSize]
  | succ n ih =>
    simp only [List.replicate_succ, List.flatten_cons, totalSize_append, ih]
    push_cast
    ring

theorem Join_replicate_succ (r : GoString) (m : Nat) :
    Join (List.replicate (m + 1 + 1) r) = r ++ nl :: Join (List.replicate (m + 1) r) := by
  simp [List.replicate_succ, Join]

/-- The lines of `m + 1` copies of `r` joined by newlines are the lines of `r`,
`m + 1` times. -/
theorem Split_Join_replicate (r : GoString) (m : Nat) :
    Split (Join (List.replicate (m + 1) r)) = (List.replicate (m + 1) (Split r)).flatten := by
  induction m with
  | zero => simp [Join]
  | succ n ih =>
    rw [Join_replicate_succ, Split_append_nl, ih]
    simp [List.replicate_succ]

theorem mem_flatten_replicate (X : List GoString) (m : Nat) (l : GoString)
    (hl : l ∈ (List.replicate m X).flatten) : l ∈ X := by
  rw [List.mem_flatten] at hl
  obtain ⟨Y, hY, hlY⟩ := hl
  rw [List.eq_of_mem_replicate hY] at hlY
  exact hlY

/-- The text of `m + 1` copies of a summary `r` joined by newlines is split into at
most `m + 1` chunks when two copies fit the budget. -/
theorem chunkString_copies_le (r : GoString) (b : Int) (m : Nat)
    (hhdr : ∀ l ∈ Split r, HasPrefix l fileHeader = false) (hfit : 2 * lineSize r ≤ b) :
    (chunkString (Join (List.replicate (m + 1) r)) b 5).length ≤ m + 1 := by
  rw [chunkString_five_length]
  unfold chunkLines
  rw [Split_Join_replicate]
  have hne : (List.replicate (m + 1) (Split r)).flatten ≠ [] := by
    cases hs : Split r with
    | nil => exact absurd hs (Split_ne_nil r)
    | cons x xs => simp [List.replicate_succ]
  have h := (lineLoop_count b (lineSize r) hfit _ [] [] hne (by
    intro l hl
    have hl2 := mem_flatten_replicate _ _ l hl
    exact ⟨hhdr l hl2, le_of_le_of_eq (lineSize_le_totalSize _ l hl2) (totalSize_Split r)⟩)).1
  rw [totalSize_flatten_replicate, totalSize_Split] at h
  simp only [List.length_nil, totalSize] at h
  push_cast at h
  have hpos := lineSize_pos r
  have h2 : lineSize r * ((lineLoop b (List.replicate (m + 1) (Split r)).flatten
      ⟨[], []⟩).done.length : Int) < lineSize r * ((m : Int) + 1 + 1) := by nlinarith
  have h3 := lt_of_mul_lt_mul_left h2 (le_of_lt hpos)
  omega

/-- The text of `m + 2` copies of a summary `r` joined by newlines is split into
fewer chunks than copies when two copies fit the budget: the first chunk takes
two copies whole, and every chunk closed later holds more than one copy's bytes. -/
theorem chunkString_copies_lt (r : GoString) (b : Int) (m : Nat)
    (hhdr : ∀ l ∈ Split r, HasPrefix l fileHeader = false) (hfit : 2 * lineSize r ≤ b) :
    (chunkString (Join (List.replicate (m + 2) r)) b 5).length < m + 2 := by
  rw [chunkString_five_length]
  unfold chunkLines
  rw [Split_Join_replicate r (m + 1)]
  have hX : Split r ≠ [] := Split_ne_nil r
  have e : (List.replicate (m + 1 + 1) (Split r)).flatten
      = (Split r ++ Split r) ++ (List.replicate m (Split r)).flatten := by
    simp [List.replicate_succ]
  rw [e]
  have hA : ∀ l ∈ Split r ++ Split r, HasPrefix l fileHeader = false := by
    intro l hl
    rcases List.mem_append.mp hl with h | h <;> exact hhdr l h
  have hAsz : totalSize [] + totalSize (Split r ++ Split r) ≤ b := by
    rw [totalSize_append, totalSize_Split]
    simp only [totalSize]
    omega
  have hAne : Split r ++ Split r ≠ [] := by simp [hX]
  cases m with
  | zero =>
    have h := lineLoop_run b (Split r ++ Split r) [] [] [] hA hAsz rfl hAne
    simp only [List.replicate_zero, List.flatten_nil]
    rw [h]
    simp [lineLoop]
  | succ k =>
    have hRne : (List.replicate (k + 1) (Split r)).flatten ≠ [] := by
      cases hs : Split r with
      | nil => exact absurd hs hX
      | cons x xs => simp [List.replicate_succ]
    have hRall : ∀ l ∈ (List.replicate (k + 1) (Split r)).flatten,
        HasPrefix l fileHeader = false ∧ lineSize l ≤ lineSize r := by
      intro l hl
      have hl2 := mem_flatten_replicate _ _ l hl
      exact ⟨hhdr l hl2, le_of_le_of_eq (lineSize_le_totalSize _ l hl2) (totalSize_Split r)⟩
    have hRends : endsChunk (List.replicate (k + 1) (Split r)).flatten = false := by
      cases hR : (List.replicate (k + 1) (Split r)).flatten with
      | nil => exact absurd hR hRne
      | cons x xs =>
        have hx : x ∈ (List.replicate (k + 1) (Split r)).flatten := by rw [hR]; simp
        simpa [endsChunk] using (hRall x hx).1
    rw [lineLoop_run_open b (Split r ++ Split r) _ [] [] hA hAsz hRends]
    have h := (lineLoop_count b (lineSize r) hfit _ [] ([] ++ (Split r ++ Split r)) hRne
      hRall).2
    rw [totalSize_flatten_replicate, totalSize_Split] at h
    simp only [List.length_nil] at h
    push_cast at h
    have hpos := lineSize_pos r
    have h2 : lineSize r * ((lineLoop b (List.replicate (k + 1) (Split r)).flatten
        ⟨[], [] ++ (Split r ++ Split r)⟩).done.length : Int)
        < lineSize r * ((k : Int) + 1 + 2) := by nlinarith
    have h3 := lt_of_mul_lt_mul_left h2 (le_of_lt hpos)
    omega

theorem answers_const {σ ε : Type} (f : GoString → Config → σ → (GoString × Option ε) × σ)
    (config : Config) (r : GoString) (hstub : ∀ c w, (f c config w).1 = (r, none))
    (chunks : List GoString) (w : σ) :
    ∃ w1, answers f config chunks w = some (List.replicate chunks.length r, w1) := by
  induction chunks generalizing w with
  | nil => exact ⟨w, rfl⟩
  | cons c cs ih =>
    rcases hfc : f c config w with ⟨⟨s, o⟩, w2⟩
    have h := hstub c w
    rw [hfc] at h
    simp only [Prod.mk.injEq] at h
    obtain ⟨rfl, rfl⟩ := h
    obtain ⟨w3, h3⟩ := ih w2
    exact ⟨w3, by simp [answers, hfc, h3, List.replicate_succ]⟩

theorem const_converges_aux {σ ε : Type}
    (f : GoString → Config → σ → (GoString × Option ε) × σ) (config : Config) (r : GoString)
    (hstub : ∀ c w, (f c config w).1 = (r, none))
    (hhdr : ∀ l ∈ Split r, HasPrefix l fileHeader = false)
    (hfit : 2 * lineSize r ≤ config.ContextLength) (m : Nat) :
    ∀ (w : σ) (calls : List GoString),
      ∃ (fuel : Nat) (out : GoString) (w1 : σ) (calls1 : List GoString),
        chunkAndSummarizeDiff f fuel (Join (List.replicate (m + 1) r)) config w calls
          = (some (out, none), w1, calls1) ∧
        (out.length : Int) ≤ config.ContextLength := by
  induction m using Nat.strong_induction_on with
  | _ m ih =>
    intro w calls
    have hpos : 1 ≤ (chunkString (Join (List.replicate (m + 1) r)) config.ContextLength
        5).length := by
      rw [chunkString_five_length]
      exact chunkLines_length_pos _ _
    obtain ⟨j, hj⟩ : ∃ j,
        (chunkString (Join (List.replicate (m + 1) r)) config.ContextLength 5).length = j + 1 :=
      ⟨_, (Nat.sub_add_cancel hpos).symm⟩
    obtain ⟨w1, hans⟩ := answers_const f config r hstub
      (chunkString (Join (List.replicate (m + 1) r)) config.ContextLength 5) w
    rw [hj] at hans
    have hS := lineSize_pos r
    by_cases hbig : totalSize (List.replicate (j + 1) r) - 1 > config.ContextLength
    · have hj1 : 1 ≤ j := by
        rcases Nat.eq_zero_or_pos j with h0 | h0
        · subst h0
          simp only [List.replicate_succ, List.replicate_zero, totalSize] at hbig
          omega
        · exact h0
      have hjm : j < m := by
        cases m with
        | zero =>
          have := chunkString_copies_le r config.ContextLength 0 hhdr hfit
          omega
        | succ k =>
          have hlt : (chunkString (Join (List.replicate (k + 1 + 1) r)) config.ContextLength
              5).length < k + 2 := chunkString_copies_lt r config.ContextLength k hhdr hfit
          omega
      obtain ⟨fuel, out, w2, calls2, hrun, hout⟩ := ih j hjm w1
        (calls ++ chunkString (Join (List.replicate (m + 1) r)) config.ContextLength 5)
      refine ⟨fuel + 1, out, w2, calls2, ?_, hout⟩
      rw [chunkAndSummarizeDiff_next f fuel _ config w calls _ w1 hans hbig,
        ← Join_eq_dropLast]
      exact hrun
    · refine ⟨1, Join (List.replicate (j + 1) r), w1,
        calls ++ chunkString (Join (List.replicate (m + 1) r)) config.ContextLength 5, ?_, ?_⟩
      · exact chunkAndSummarizeDiff_done f 0 _ config w calls _ w1 hans (by omega)
      · rw [length_Join _ (by simp [List.replicate_succ])]
        omega

theorem const_x_diverges (fuel : Nat) (calls : List GoString) :
    (chunkAndSummarizeDiff (fun _ _ (w : Unit) => ((['x'], (none : Option Unit)), w)) fuel
      ['x', nl, 'x'] ⟨1⟩ () calls).1 = none := by
  induction fuel generalizing calls with
  | zero => rfl
  | succ n ih =>
    rw [chunkAndSummarizeDiff_next _ n ['x', nl, 'x'] ⟨1⟩ () calls [['x'], ['x']] ()
      (by decide) (by decide)]
    exact ih _

theorem const_header_diverges (fuel : Nat) (calls : List GoString) :
    (chunkAndSummarizeDiff (fun _ _ (w : Unit) => ((fileHeader, (none : Option Unit)), w)) fuel
      (Join [fileHeader, fileHeader, fileHeader]) ⟨22⟩ () calls).1 = none := by
  induction fuel generalizing calls with
  | zero => rfl
  | succ n ih =>
    rw [chunkAndSummarizeDiff_next _ n (Join [fileHeader, fileHeader, fileHeader]) ⟨22⟩ () calls
      [fileHeader, fileHeader, fileHeader] () (by decide) (by decide)]
    exact ih _

/-- C7, counterexample. First, with `ContextLength = 1` and the stub that always
returns `"x"` (non-empty, of length 1), the input `"x\\nx"` is split into two chunks
whose joined summaries are `"x\\nx"` again, longer than 1, so no number of rounds
produces a result. Second, with `ContextLength = 22` and the stub that always
returns `"diff --git"` (length 10, so that two summaries with their newlines fit
the budget), the input of three such lines is split into three chunks whose
joined summaries are the input again, longer than 22: no number of rounds produces
a result either. -/
theorem chunkAndSummarizeDiff_no_convergence :
    ((0 : Int) < (Config.mk 1).ContextLength ∧ (['x'] : GoString) ≠ [] ∧
      ((['x'] : GoString).length : Int) ≤ (Config.mk 1).ContextLength ∧
      ¬ ∃ (fuel : Nat) (out : GoString × Option Unit),
          (chunkAndSummarizeDiff (fun _ _ (w : Unit) => ((['x'], (none : Option Unit)), w))
            fuel ['x', nl, 'x'] ⟨1⟩ () []).1 = some out) ∧
    ((0 : Int) < (Config.mk 22).ContextLength ∧ fileHeader ≠ [] ∧
      (fileHeader.length : Int) ≤ (Config.mk 22).ContextLength ∧
      2 * ((fileHeader.length : Int) + 1) ≤ (Config.mk 22).ContextLength ∧
      ¬ ∃ (fuel : Nat) (out : GoString × Option Unit),
          (chunkAndSummarizeDiff
            (fun _ _ (w : Unit) => ((fileHeader, (none : Option Unit)), w))
            fuel (Join [fileHeader, fileHeader, fileHeader]) ⟨22⟩ () []).1 = some out) := by
  refine ⟨⟨by decide, by decide, by decide, ?_⟩, ⟨by decide, by decide, by decide, by decide, ?_⟩⟩
  · rintro ⟨fuel, out, h⟩
    rw [const_x_diverges] at h
    exact absurd h (by simp)
  · rintro ⟨fuel, out, h⟩
    rw [const_header_diverges] at h
    exact absurd h (by simp)

/-- C7, amended: for a summarizer stub that always returns the same string `r`, no
line of which begins with `"diff --git"`, and which is short enough for two
summaries with their newlines to fit the budget
(`2 * (len(r) + 1) ≤ ContextLength`), `chunkAndSummarizeDiff` terminates on every
input after finitely many rounds, without error, and the text it returns has
length at most `ContextLength`. -/
theorem chunkAndSummarizeDiff_converges {σ ε : Type}
    (summarizeDiff : GoString → Config → σ → (GoString × Option ε) × σ)
    (r diff : GoString) (config : Config) (w : σ)
    (hstub : ∀ c w, (summarizeDiff c config w).1 = (r, none))
    (hhdr : ∀ l ∈ Split r, HasPrefix l fileHeader = false)
    (hfit : 2 * ((r.length : Int) + 1) ≤ config.ContextLength) :
    ∃ (fuel : Nat) (out : GoString) (w1 : σ) (calls1 : List GoString),
      chunkAndSummarizeDiff summarizeDiff fuel diff config w []
        = (some (out, none), w1, calls1) ∧
      (out.length : Int) ≤ config.ContextLength := by
  have hpos : 1 ≤ (chunkString diff config.ContextLength 5).length := by
    rw [chunkString_five_length]
    exact chunkLines_length_pos _ _
  obtain ⟨j, hj⟩ : ∃ j, (chunkString diff config.ContextLength 5).length = j + 1 :=
    ⟨_, (Nat.sub_add_cancel hpos).symm⟩
  obtain ⟨w1, hans⟩ := answers_const summarizeDiff config r hstub
    (chunkString diff config.ContextLength 5) w
  rw [hj] at hans
  by_cases hbig : totalSize (List.replicate (j + 1) r) - 1 > config.ContextLength
  · obtain ⟨fuel, out, w2, calls2, hrun, hout⟩ :=
      const_converges_aux summarizeDiff config r hstub hhdr hfit j w1
        ([] ++ chunkString diff config.ContextLength 5)
    refine ⟨fuel + 1, out, w2, calls2, ?_, hout⟩
    rw [chunkAndSummarizeDiff_next summarizeDiff fuel _ config w [] _ w1 hans hbig,
      ← Join_eq_dropLast]
    exact hrun
  · refine ⟨1, Join (List.replicate (j + 1) r), w1,
      [] ++ chunkString diff config.ContextLength 5, ?_, ?_⟩
    · exact chunkAndSummarizeDiff_done summarizeDiff 0 _ config w [] _ w1 hans (by omega)
    · rw [length_Join _ (by simp [List.replicate_succ])]
      omega

/-- Witness of C7 (amended): the stub returning the two-line summary `"s\\nt"` with
`ContextLength = 8` on the text `"a\\nb\\nc\\nd\\ne\\nf"`. -/
theorem chunkAndSummarizeDiff_converges_witness :
    ∃ (fuel : Nat) (out : GoString) (w1 : Unit) (calls1 : List GoString),
      chunkAndSummarizeDiff (fun _ _ (w : Unit) => ((['s', nl, 't'], (none : Option Unit)), w))
          fuel ['a', nl, 'b', nl, 'c', nl, 'd', nl, 'e', nl, 'f'] ⟨8⟩ () []
        = (some (out, none), w1, calls1) ∧
      (out.length : Int) ≤ (Config.mk 8).ContextLength :=
  chunkAndSummarizeDiff_converges
    (fun _ _ (w : Unit) => ((['s', nl, 't'], (none : Option Unit)), w))
    ['s', nl, 't'] ['a', nl, 'b', nl, 'c', nl, 'd', nl, 'e', nl, 'f'] ⟨8⟩ ()
    (fun _ _ => rfl) (by decide) (by decide)

end Gocommit
